/- Verification of the tolerant JSON repair engine (src/lib/json-fixer.ts and the
earlier pipeline variant kept alongside it). The engine is shallowly embedded
over `List Char`: `JValue` models the parsed JavaScript value, `jsonParse` models
`JSON.parse` (which tolerates surrounding JSON whitespace, here applied after a
trim), `renderV` models `JSON.stringify (v, null, 2)` and `renderMin` models
`JSON.stringify (v)`. JavaScript numbers are carried as their source literal
rather than as IEEE doubles; `String.prototype.trim` is modelled over the ASCII
whitespace characters shared with JSON. Each repair stage of the source is
translated from the code; concrete repairs are evaluated by kernel reduction. -/
import Mathlib

/-! Section 1: characters and whitespace. -/

/-- JSON insignificant whitespace (also the ASCII core of the whitespace that
the trim of JavaScript removes). -/
def isWsChar (c : Char) : Bool :=
  c == ' ' || c == '\t' || c == '\n' || c == '\r'

/-- The character class of a JavaScript regular-expression whitespace atom, on
the ASCII plane (the unicode space code points are not modelled). -/
def isRegexWs (c : Char) : Bool :=
  isWsChar c || c == Char.ofNat 11 || c == Char.ofNat 12

/-- Leading whitespace removed. -/
def trimLeftWs (l : List Char) : List Char := l.dropWhile isWsChar

/-- Trailing whitespace removed. -/
def trimRightWs (l : List Char) : List Char := (l.reverse.dropWhile isWsChar).reverse

/-- Both-ends trim: the model of a trim call in the source. -/
def trimWs (l : List Char) : List Char := trimRightWs (trimLeftWs l)

/-- A decimal digit. -/
def isDigit09 (c : Char) : Bool := '0' ≤ c && c ≤ '9'

/-! Section 2: the JavaScript value model. -/

/-- A parsed JSON value as the engine holds one: numbers keep their source
literal, objects are ordered key-value lists with unique keys. -/
inductive JValue where
  | null
  | bool (b : Bool)
  | num (lit : List Char)
  | str (s : List Char)
  | arr (items : List JValue)
  | obj (fields : List (List Char × JValue))

instance : Inhabited JValue := ⟨JValue.null⟩

/-- Property write of a JavaScript object: an existing key keeps its position and
takes the new value, a fresh key goes to the end. -/
def objInsert (fields : List (List Char × JValue)) (k : List Char) (v : JValue) :
    List (List Char × JValue) :=
  if fields.any (fun kv => kv.1 == k) then
    fields.map (fun kv => if kv.1 = k then (kv.1, v) else kv)
  else fields ++ [(k, v)]

/-- The object a JavaScript engine builds from a member list (duplicate keys:
last write wins, first position kept). -/
def buildObj (ms : List (List Char × JValue)) : List (List Char × JValue) :=
  ms.foldl (fun acc kv => objInsert acc kv.1 kv.2) []

/-! Section 3: the model of JSON.parse. -/

/-- Value of a hexadecimal digit. -/
def hexVal (c : Char) : Option Nat :=
  if '0' ≤ c && c ≤ '9' then some (c.toNat - 48)
  else if 'a' ≤ c && c ≤ 'f' then some (c.toNat - 87)
  else if 'A' ≤ c && c ≤ 'F' then some (c.toNat - 55)
  else none

/-- The named JSON string escapes. -/
def jsonUnescape (c : Char) : Option Char :=
  if c = '"' then some '"'
  else if c = '\\' then some '\\'
  else if c = '/' then some '/'
  else if c = 'b' then some (Char.ofNat 8)
  else if c = 'f' then some (Char.ofNat 12)
  else if c = 'n' then some '\n'
  else if c = 'r' then some '\r'
  else if c = 't' then some '\t'
  else none

/-- The code unit denoted by four hexadecimal digits, read as a character
(unpaired UTF-16 surrogates are outside the model). -/
def hex4Char (a b c d : Char) : Option Char :=
  match hexVal a, hexVal b, hexVal c, hexVal d with
  | some va, some vb, some vc, some vd =>
      some (Char.ofNat (((va * 16 + vb) * 16 + vc) * 16 + vd))
  | _, _, _, _ => none

/-- JSON string body after the opening quote: raw characters from 0x20 up,
escapes decoded, first unescaped quote closes. -/
def parseStrBody (acc : List Char) : List Char → Except (List Char) (List Char × List Char)
  | [] => .error ( "unterminated string literal").data
  | c :: rest =>
    if c = '"' then .ok (acc.reverse, rest)
    else if c = '\\' then
      match rest with
      | 'u' :: a :: b :: c2 :: d :: r2 =>
        match hex4Char a b c2 d with
        | some ch => parseStrBody (ch :: acc) r2
        | none => .error ( "bad unicode escape").data
      | e :: r2 =>
        match jsonUnescape e with
        | some ch => parseStrBody (ch :: acc) r2
        | none => .error ( "bad escape character").data
      | [] => .error ( "bad escape at end of input").data
    else if c.toNat < 32 then .error ( "bad control character in string literal").data
    else parseStrBody (c :: acc) rest

/-- The integer part of a JSON number: a lone zero, or a nonzero digit and a run. -/
def parseIntLit : List Char → Except (List Char) (List Char × List Char)
  | c :: rest =>
    if c = '0' then .ok ([c], rest)
    else if isDigit09 c then .ok (c :: rest.takeWhile isDigit09, rest.dropWhile isDigit09)
    else .error ( "expected a digit").data
  | [] => .error ( "expected a digit").data

/-- The optional fraction part: a dot must be followed by digits. -/
def parseFracLit (l : List Char) : Except (List Char) (List Char × List Char) :=
  match l with
  | '.' :: rest =>
    match rest.takeWhile isDigit09 with
    | [] => .error ( "expected digits after the decimal point").data
    | ds => .ok ('.' :: ds, rest.dropWhile isDigit09)
  | _ => .ok ([], l)

/-- The optional exponent part: e or E, an optional sign, then digits. -/
def parseExpLit (l : List Char) : Except (List Char) (List Char × List Char) :=
  match l with
  | c :: rest =>
    if c = 'e' ∨ c = 'E' then
      match (match rest with
             | s :: r => if s = '+' ∨ s = '-' then (([s] : List Char), r) else ([], rest)
             | [] => ([], [])) with
      | (sgn, r1) =>
        match r1.takeWhile isDigit09 with
        | [] => .error ( "expected exponent digits").data
        | ds => .ok (c :: (sgn ++ ds), r1.dropWhile isDigit09)
    else .ok ([], l)
  | [] => .ok ([], [])

/-- A whole JSON number literal: sign, integer, fraction, exponent. The consumed
span is returned verbatim as the literal. -/
def parseNumLit (l : List Char) : Except (List Char) (List Char × List Char) :=
  match (match l with
         | '-' :: r => ((['-'] : List Char), r)
         | _ => ([], l)) with
  | (sgn, r0) =>
    match parseIntLit r0 with
    | .error e => .error e
    | .ok (ip, r1) =>
      match parseFracLit r1 with
      | .error e => .error e
      | .ok (fp, r2) =>
        match parseExpLit r2 with
        | .error e => .error e
        | .ok (ep, r3) => .ok (sgn ++ ip ++ fp ++ ep, r3)

mutual

/-- One JSON value, fuelled for totality; leading whitespace is skipped, the
rest after the value is returned. -/
def parseVal : Nat → List Char → Except (List Char) (JValue × List Char)
  | 0, _ => .error ( "internal fuel exhausted").data
  | fuel + 1, cs =>
    match cs.dropWhile isWsChar with
    | 'n' :: 'u' :: 'l' :: 'l' :: r => .ok (.null, r)
    | 't' :: 'r' :: 'u' :: 'e' :: r => .ok (.bool true, r)
    | 'f' :: 'a' :: 'l' :: 's' :: 'e' :: r => .ok (.bool false, r)
    | c :: r =>
      if c = '"' then
        match parseStrBody [] r with
        | .ok (s, r2) => .ok (.str s, r2)
        | .error e => .error e
      else if c = '{' then
        match r.dropWhile isWsChar with
        | '}' :: r2 => .ok (.obj [], r2)
        | r3 =>
          match parseMembersJ fuel r3 with
          | .ok (ms, r4) => .ok (.obj (buildObj ms), r4)
          | .error e => .error e
      else if c = '[' then
        match r.dropWhile isWsChar with
        | ']' :: r2 => .ok (.arr [], r2)
        | r3 =>
          match parseElemsJ fuel r3 with
          | .ok (es, r4) => .ok (.arr es, r4)
          | .error e => .error e
      else if c = '-' ∨ isDigit09 c then
        match parseNumLit (c :: r) with
        | .ok (lit, r2) => .ok (.num lit, r2)
        | .error e => .error e
      else .error ( "unexpected token").data
    | [] => .error ( "unexpected end of JSON input").data

/-- One or more comma-separated array elements, then the closing bracket. -/
def parseElemsJ : Nat → List Char → Except (List Char) (List JValue × List Char)
  | 0, _ => .error ( "internal fuel exhausted").data
  | fuel + 1, cs =>
    match parseVal fuel cs with
    | .error e => .error e
    | .ok (v, r) =>
      match r.dropWhile isWsChar with
      | ',' :: r2 =>
        match parseElemsJ fuel r2 with
        | .ok (vs, r3) => .ok (v :: vs, r3)
        | .error e => .error e
      | ']' :: r2 => .ok ([v], r2)
      | _ => .error ( "expected a comma or a closing bracket").data

/-- One or more comma-separated object members, then the closing brace. -/
def parseMembersJ : Nat → List Char → Except (List Char) (List (List Char × JValue) × List Char)
  | 0, _ => .error ( "internal fuel exhausted").data
  | fuel + 1, cs =>
    match cs.dropWhile isWsChar with
    | c :: r =>
      if c = '"' then
        match parseStrBody [] r with
        | .error e => .error e
        | .ok (k, r1) =>
          match r1.dropWhile isWsChar with
          | ':' :: r2 =>
            match parseVal fuel r2 with
            | .error e => .error e
            | .ok (v, r3) =>
              match r3.dropWhile isWsChar with
              | ',' :: r4 =>
                match parseMembersJ fuel r4 with
                | .ok (ms, r5) => .ok ((k, v) :: ms, r5)
                | .error e => .error e
              | '}' :: r4 => .ok ([(k, v)], r4)
              | _ => .error ( "expected a comma or a closing brace").data
          | _ => .error ( "expected a colon").data
      else .error ( "expected a string key").data
    | [] => .error ( "unexpected end of JSON input").data

end

/-- The model of JSON.parse: surrounding whitespace away, exactly one value. -/
def jsonParse (l : List Char) : Except (List Char) JValue :=
  match parseVal ((trimWs l).length + 1) (trimWs l) with
  | .error e => .error e
  | .ok (v, r) => if r = [] then .ok v else .error ( "unexpected trailing characters").data

/-! Section 4: the model of JSON.stringify. -/

/-- Lowercase hexadecimal digit character. -/
def hexDigitChar (n : Nat) : Char :=
  if n < 10 then Char.ofNat (48 + n) else Char.ofNat (87 + n)

/-- Escaping of string content for a JSON double-quoted literal: the escapeForJson
helper of the source, which agrees with the quoting JSON.stringify performs. -/
def escapeForJson : List Char → List Char
  | [] => []
  | c :: t =>
    (if c = '\\' then ['\\', '\\']
     else if c = '"' then ['\\', '"']
     else if c = '\n' then ['\\', 'n']
     else if c = '\r' then ['\\', 'r']
     else if c = '\t' then ['\\', 't']
     else if c = Char.ofNat 8 then ['\\', 'b']
     else if c = Char.ofNat 12 then ['\\', 'f']
     else if c.toNat < 32 then
       '\\' :: 'u' :: '0' :: '0' ::
         (if c.toNat < 16 then ['0', hexDigitChar c.toNat]
          else [hexDigitChar (c.toNat / 16), hexDigitChar (c.toNat % 16)])
     else [c]) ++ escapeForJson t

/-- A complete double-quoted JSON string literal for the content `s`. -/
def quoteStr (s : List Char) : List Char := '"' :: (escapeForJson s ++ ['"'])

/-- `n` spaces of indentation. -/
def nSpaces (n : Nat) : List Char := List.replicate n ' '

mutual

/-- The model of JSON.stringify with two-space indentation: `d` is the current
indent width; empty containers stay on one line. -/
def renderV : JValue → Nat → List Char
  | .null, _ => ( "null").data
  | .bool true, _ => ( "true").data
  | .bool false, _ => ( "false").data
  | .num lit, _ => lit
  | .str s, _ => quoteStr s
  | .arr [], _ => ['[', ']']
  | .arr (x :: xs), d =>
      '[' :: '\n' :: (renderItems (x :: xs) (d + 2) ++ '\n' :: (nSpaces d ++ [']']))
  | .obj [], _ => ['{', '}']
  | .obj (f :: fs), d =>
      '{' :: '\n' :: (renderFields (f :: fs) (d + 2) ++ '\n' :: (nSpaces d ++ ['}']))

/-- Array elements, one per line at indent `d`, comma-newline separated. -/
def renderItems : List JValue → Nat → List Char
  | [], _ => []
  | [x], d => nSpaces d ++ renderV x d
  | x :: y :: xs, d => nSpaces d ++ renderV x d ++ ',' :: '\n' :: renderItems (y :: xs) d

/-- Object members, one per line at indent `d`, comma-newline separated. -/
def renderFields : List (List Char × JValue) → Nat → List Char
  | [], _ => []
  | [(k, v)], d => nSpaces d ++ (quoteStr k ++ ':' :: ' ' :: renderV v d)
  | (k, v) :: g :: fs, d =>
      nSpaces d ++ (quoteStr k ++ ':' :: ' ' :: renderV v d) ++ ',' :: '\n' :: renderFields (g :: fs) d

end

mutual

/-- The model of JSON.stringify without an indent argument: minified output. -/
def renderMin : JValue → List Char
  | .null => ( "null").data
  | .bool true => ( "true").data
  | .bool false => ( "false").data
  | .num lit => lit
  | .str s => quoteStr s
  | .arr items => '[' :: (renderMinItems items ++ [']'])
  | .obj fields => '{' :: (renderMinFields fields ++ ['}'])

/-- Minified array elements, comma separated. -/
def renderMinItems : List JValue → List Char
  | [] => []
  | [x] => renderMin x
  | x :: y :: xs => renderMin x ++ ',' :: renderMinItems (y :: xs)

/-- Minified object members, comma separated. -/
def renderMinFields : List (List Char × JValue) → List Char
  | [] => []
  | [(k, v)] => quoteStr k ++ ':' :: renderMin v
  | (k, v) :: g :: fs => quoteStr k ++ ':' :: renderMin v ++ ',' :: renderMinFields (g :: fs)

end

/-! Section 5: a generic left-to-right rewrite scanner.

A JavaScript global regex replace, and equally the hand-rolled scanning loops of
the source, move left to right: where the pattern matches, the replacement is
emitted and scanning resumes after the match; elsewhere one character is copied.
`runScan step` is that driver; each stage supplies its `step`, which at a match
returns the emitted text and the input after the match. -/

/-- Fuelled scan driver; the fuel only serves totality, one character is always
consumed per round. -/
def scanGas (step : List Char → Option (List Char × List Char)) :
    Nat → List Char → List Char
  | 0, l => l
  | _ + 1, [] => []
  | f + 1, c :: rest =>
    match step (c :: rest) with
    | some (out, r) => out ++ scanGas step f r
    | none => c :: scanGas step f rest

/-- The scan with always-sufficient fuel. -/
def runScan (step : List Char → Option (List Char × List Char)) (l : List Char) :
    List Char :=
  scanGas step (l.length + 1) l

/-! Section 6: the stage functions of src/lib/json-fixer.ts. -/

/-- The result record of the engine (the JsonFixResult interface, shared by the
pipeline variants). -/
structure JsonFixResult where
  success : Bool
  data : JValue
  formatted : List Char
  errors : List (List Char)
  fixes : List (List Char)

namespace JsonFixer

/-- The copying loop of readDoubleQuotedString after the opening quote: escape
pairs are consumed atomically, the first bare quote closes, end of input is
tolerated. Returns the copied span (closing quote included when present) and
the rest. -/
def readDQbody : List Char → List Char × List Char
  | [] => ([], [])
  | c :: rest =>
    if c = '\\' then
      match rest with
      | c2 :: r2 =>
        match readDQbody r2 with
        | (b, r) => (c :: c2 :: b, r)
      | [] => ([c], [])
    else if c = '"' then ([c], rest)
    else
      match readDQbody rest with
      | (b, r) => (c :: b, r)

/-- readDoubleQuotedString of the source, on the characters after the opening
quote: the double-quoted literal passes through unchanged. -/
def readDoubleQuotedString (l : List Char) : List Char × List Char :=
  match readDQbody l with
  | (b, r) => ('"' :: b, r)

/-- parseInt of JavaScript with base 16 on a short string: the maximal leading
run of hexadecimal digits, NaN when the first character is none (the leading
whitespace, sign and 0x forms parseInt would also accept are not modelled). -/
def jsParseIntHexAux (acc : Nat) : List Char → Nat
  | [] => acc
  | c :: rest =>
    match hexVal c with
    | some v => jsParseIntHexAux (acc * 16 + v) rest
    | none => acc

/-- parseInt base 16, see jsParseIntHexAux. -/
def jsParseIntHex : List Char → Option Nat
  | [] => none
  | c :: rest =>
    match hexVal c with
    | some v => some (jsParseIntHexAux v rest)
    | none => none

/-- The named escapes of readSingleQuotedString; the hex forms (x, u) have their
own arms in readSQc, reached only with enough characters left, exactly as the
length guards of the source arrange. -/
def sqEscape (n : Char) : Option Char :=
  if n = '\'' then some '\''
  else if n = '"' then some '"'
  else if n = '\\' then some '\\'
  else if n = 'n' then some '\n'
  else if n = 't' then some '\t'
  else if n = 'r' then some '\r'
  else if n = 'b' then some (Char.ofNat 8)
  else if n = 'f' then some (Char.ofNat 12)
  else none

/-- The content loop of readSingleQuotedString after the opening quote: source
escape rules decoded (String.fromCharCode is Char.ofNat, so unpaired UTF-16
surrogates are outside the model), the first unescaped single quote closes, end
of input is tolerated. Returns the decoded content and the rest. An unknown
escape keeps the escaped character; a failed hex escape keeps the x or u and
resumes at the would-be digits. -/
def readSQc : List Char → List Char × List Char
  | [] => ([], [])
  | '\'' :: rest => ([], rest)
  | '\\' :: 'x' :: h1 :: h2 :: r3 =>
    (match jsParseIntHex [h1, h2] with
     | some code =>
       match readSQc r3 with
       | (b, r) => (Char.ofNat code :: b, r)
     | none =>
       match readSQc (h1 :: h2 :: r3) with
       | (b, r) => ('x' :: b, r))
  | '\\' :: 'u' :: h1 :: h2 :: h3 :: h4 :: r3 =>
    (match jsParseIntHex [h1, h2, h3, h4] with
     | some code =>
       match readSQc r3 with
       | (b, r) => (Char.ofNat code :: b, r)
     | none =>
       match readSQc (h1 :: h2 :: h3 :: h4 :: r3) with
       | (b, r) => ('u' :: b, r))
  | '\\' :: n :: r2 =>
    (match sqEscape n with
     | some ch =>
       match readSQc r2 with
       | (b, r) => (ch :: b, r)
     | none =>
       match readSQc r2 with
       | (b, r) => (n :: b, r))
  | ['\\'] => ([], [])
  | c :: rest =>
    match readSQc rest with
    | (b, r) => (c :: b, r)

/-- readSingleQuotedString of the source, on the characters after the opening
quote: the decoded content re-escaped as a double-quoted JSON literal. -/
def readSingleQuotedString (l : List Char) : List Char × List Char :=
  match readSQc l with
  | (content, r) => ('"' :: (escapeForJson content ++ ['"']), r)

/-- Word-boundary lookahead of the Python literal patterns: the match fails when
a word character follows. -/
def pyBoundary (rest : List Char) : Bool :=
  match rest with
  | [] => true
  | c :: _ =>
    !(('a' ≤ c && c ≤ 'z') || ('A' ≤ c && c ≤ 'Z') || isDigit09 c || c == '_')

/-- The three Python literal rewrites, right-boundary checked. -/
def pyLit : List Char → Option (List Char × List Char)
  | 'N' :: 'o' :: 'n' :: 'e' :: rest =>
    if pyBoundary rest then some (( "null").data, rest) else none
  | 'T' :: 'r' :: 'u' :: 'e' :: rest =>
    if pyBoundary rest then some (( "true").data, rest) else none
  | 'F' :: 'a' :: 'l' :: 's' :: 'e' :: rest =>
    if pyBoundary rest then some (( "false").data, rest) else none
  | _ => none

/-- One round of the convertPythonToJson loop: double-quoted strings pass
through, single-quoted strings are converted, Python literals are replaced,
anything else is copied. -/
def stepPy (l : List Char) : Option (List Char × List Char) :=
  match l with
  | c :: rest =>
    if c = '"' then some (readDoubleQuotedString rest)
    else if c = '\'' then some (readSingleQuotedString rest)
    else pyLit l
  | [] => none

/-- convertPythonToJson of the source. -/
def convertPythonToJson (l : List Char) : List Char := runScan stepPy l

/-- The single-quote skipping loop of removeComments: the span is copied
verbatim (escape pairs atomically), the first bare quote closes and is copied. -/
def readSQskipBody : List Char → List Char × List Char
  | [] => ([], [])
  | c :: rest =>
    if c = '\'' then ([c], rest)
    else if c = '\\' then
      match rest with
      | c2 :: r2 =>
        match readSQskipBody r2 with
        | (b, r) => (c :: c2 :: b, r)
      | [] => ([c], [])
    else
      match readSQskipBody rest with
      | (b, r) => (c :: b, r)

/-- The block-comment loop of removeComments, after the opening pair: it scans
pairs while at least two characters remain, so an unterminated block comment
leaves exactly the final character to be processed again (a quirk of the
`i < length - 1` bound in the source). -/
def blockCommentRest : List Char → List Char
  | [] => []
  | [c] => [c]
  | a :: b :: r => if a = '*' ∧ b = '/' then r else blockCommentRest (b :: r)

/-- One round of the removeComments loop. -/
def stepRC (l : List Char) : Option (List Char × List Char) :=
  match l with
  | c :: rest =>
    if c = '"' then some (readDoubleQuotedString rest)
    else if c = '\'' then
      match readSQskipBody rest with
      | (b, r) => some ('\'' :: b, r)
    else if c = '/' then
      match rest with
      | '/' :: r2 => some ([], r2.dropWhile (fun x => x != '\n'))
      | '*' :: r2 => some ([], blockCommentRest r2)
      | _ => none
    else none
  | [] => none

/-- removeComments of the source. -/
def removeComments (l : List Char) : List Char := runScan stepRC l

/-- One match of the regex replacing a comma, optional whitespace and a closing
brace by the whitespace and the brace. -/
def stepTCBrace : List Char → Option (List Char × List Char)
  | ',' :: rest =>
    match rest.dropWhile isRegexWs with
    | '}' :: r2 => some (rest.takeWhile isRegexWs ++ ['}'], r2)
    | _ => none
  | _ => none

/-- The closing-bracket analogue of stepTCBrace. -/
def stepTCBracket : List Char → Option (List Char × List Char)
  | ',' :: rest =>
    match rest.dropWhile isRegexWs with
    | ']' :: r2 => some (rest.takeWhile isRegexWs ++ [']'], r2)
    | _ => none
  | _ => none

/-- fixTrailingCommas of the source: the brace rewrite, then the bracket one. -/
def fixTrailingCommas (l : List Char) : List Char :=
  runScan stepTCBracket (runScan stepTCBrace l)

/-- First character of the unquoted-key identifier class of the source. -/
def isIdentStartK (c : Char) : Bool :=
  ('a' ≤ c && c ≤ 'z') || ('A' ≤ c && c ≤ 'Z') || c == '_' || c == '$'

/-- Continuation characters of the unquoted-key identifier class. -/
def isIdentContK (c : Char) : Bool := isIdentStartK c || isDigit09 c

/-- One match of the unquoted-key regex: an opening brace or a comma, optional
whitespace, an identifier, optional whitespace and a colon; the identifier is
wrapped in double quotes. -/
def stepUK : List Char → Option (List Char × List Char)
  | c :: rest =>
    if c = '{' ∨ c = ',' then
      match rest.dropWhile isRegexWs with
      | c1 :: r2 =>
        if isIdentStartK c1 then
          match (r2.dropWhile isIdentContK).dropWhile isRegexWs with
          | ':' :: r5 =>
            some (c :: (rest.takeWhile isRegexWs ++
              '"' :: c1 :: (r2.takeWhile isIdentContK ++
                '"' :: ((r2.dropWhile isIdentContK).takeWhile isRegexWs ++ [':']))), r5)
          | _ => none
        else none
      | [] => none
    else none
  | [] => none

/-- fixUnquotedKeys of the source. -/
def fixUnquotedKeys (l : List Char) : List Char := runScan stepUK l

/-- tryParseJsonOrPython of the source: strict JSON first, then the Python
conversion and trailing-comma removal, then JSON again. -/
def tryParseJsonOrPython (l : List Char) : Option JValue :=
  match jsonParse l with
  | .ok v => some v
  | .error _ =>
    match jsonParse (fixTrailingCommas (convertPythonToJson l)) with
    | .ok v => some v
    | .error _ => none

/-- The tail test of the prefix regex, after its colon: optional whitespace,
then a span reaching the end of the string that is brace- or bracket-delimited
with the matching closer last. -/
def spanTailOk (r : List Char) : Option (List Char) :=
  match r.dropWhile isRegexWs with
  | c :: r2 =>
    if c = '{' then
      if (c :: r2).getLast? = some '}' then some (c :: r2) else none
    else if c = '[' then
      if (c :: r2).getLast? = some ']' then some (c :: r2) else none
    else none
  | [] => none

/-- The prefix regex of recursivelyParseStrings: a shortest-first scan for a
colon whose preceding characters hold no brace or bracket opener, and whose
tail passes spanTailOk; returns the raw prefix group and the span group. -/
def labelSplit : List Char → List Char → Option (List Char × List Char)
  | _, [] => none
  | acc, c :: rest =>
    if c = '{' ∨ c = '[' then none
    else if c = ':' ∧ acc ≠ [] then
      match spanTailOk rest with
      | some span => some (acc.reverse, span)
      | none => labelSplit (c :: acc) rest
    else labelSplit (c :: acc) rest

/-- recursivelyParseStrings of the source, on remaining recursion gas: the
source guards on `depth > 10` and recurses at `depth + 1`, which is one unit of
gas spent from `11 - depth`; all branches of the string case are mirrored. -/
def rpsGas : Nat → JValue → JValue
  | 0, v => v
  | g + 1, v =>
    match v with
    | .arr items => .arr (items.map (fun x => rpsGas g x))
    | .obj fields => .obj (fields.map (fun kv => (kv.1, rpsGas g kv.2)))
    | .str s =>
      let t := trimWs s
      let viaLabel : JValue :=
        match labelSplit [] t with
        | some (pre, span) =>
          match tryParseJsonOrPython span with
          | some p =>
            .obj [(( "_prefix").data, .str (trimWs pre)), (( "_data").data, rpsGas g p)]
          | none => .str s
        | none => .str s
      if (t.head? = some '{' ∧ t.getLast? = some '}') ∨
         (t.head? = some '[' ∧ t.getLast? = some ']') then
        match tryParseJsonOrPython t with
        | some p => rpsGas g p
        | none => viaLabel
      else viaLabel
    | other => other

/-- recursivelyParseStrings at an explicit depth, as the source calls it. -/
def recursivelyParseStrings (v : JValue) (depth : Nat) : JValue :=
  rpsGas (11 - depth) v

/-- fixJson of src/lib/json-fixer.ts: parse as-is first (no revival on that
path), otherwise comments, Python literals, trailing commas and unquoted keys
in that order, then parse and revive; a failing final parse reports the parser
message as the sole error with data null and formatted empty. -/
def fixJson (input : List Char) : JsonFixResult :=
  let processed0 := trimWs input
  match jsonParse processed0 with
  | .ok d => ⟨true, d, renderV d 0, [], []⟩
  | .error _ =>
    let p1 := removeComments processed0
    let f1 : List (List Char) :=
      if p1 = processed0 then [] else [( "Removed JavaScript comments").data]
    let p2 := convertPythonToJson p1
    let f2 := if p2 = p1 then f1 else f1 ++ [( "Converted Python dict syntax to JSON").data]
    let p3 := fixTrailingCommas p2
    let f3 := if p3 = p2 then f2 else f2 ++ [( "Removed trailing commas").data]
    let p4 := fixUnquotedKeys p3
    let f4 := if p4 = p3 then f3 else f3 ++ [( "Added quotes to unquoted keys").data]
    match jsonParse p4 with
    | .ok d0 =>
      let d := recursivelyParseStrings d0 0
      let f5 := if renderMin d = renderMin d0 then f4
                else f4 ++ [( "Recursively parsed nested JSON/Python strings").data]
      ⟨true, d, renderV d 0, [], f5⟩
    | .error m => ⟨false, .null, [], [m], f4⟩

end JsonFixer

/-! Section 6b: the earlier pipeline variant kept in the repository (the file
with fixSingleQuotes, fixUnquotedValues and fixMissingCommas). Its
fixUnquotedKeys and fixTrailingCommas are textually identical with the live
ones and are reused. -/

namespace JsonFixerV1

/-- The fixSingleQuotes loop: in-double and in-single flags, quotes toggled only
when the previous input character is no backslash; single quotes become double
ones outside double-quoted regions and the flags swap accordingly. -/
def fsqAux : Option Char → Bool → Bool → List Char → List Char
  | _, _, _, [] => []
  | prev, inD, inS, c :: rest =>
    if c = '"' ∧ prev ≠ some '\\' then
      (if !inS then '"' :: fsqAux (some c) (!inD) inS rest
       else '"' :: fsqAux (some c) inD inS rest)
    else if c = '\'' ∧ prev ≠ some '\\' then
      (if !inD then '"' :: fsqAux (some c) inD (!inS) rest
       else '\'' :: fsqAux (some c) inD inS rest)
    else c :: fsqAux (some c) inD inS rest

/-- fixSingleQuotes of the variant. -/
def fixSingleQuotes (l : List Char) : List Char := fsqAux none false false l

/-- fixUnquotedKeys of the variant: the same regex as the live file. -/
def fixUnquotedKeys (l : List Char) : List Char := JsonFixer.fixUnquotedKeys l

/-- fixTrailingCommas of the variant: the same two regexes as the live file. -/
def fixTrailingCommas (l : List Char) : List Char := JsonFixer.fixTrailingCommas l

/-- First character of the unquoted-value identifier class (no dollar sign, by
the source regex). -/
def isIdentStartV (c : Char) : Bool :=
  ('a' ≤ c && c ≤ 'z') || ('A' ≤ c && c ≤ 'Z') || c == '_'

/-- Continuation characters of the unquoted-value identifier class. -/
def isIdentContV (c : Char) : Bool := isIdentStartV c || isDigit09 c

/-- The bare words the replacement callback keeps unquoted. -/
def keepBare (idf : List Char) : Bool :=
  idf == ( "true").data || idf == ( "false").data || idf == ( "null").data

/-- One match of the unquoted-value regex: a colon, optional whitespace, an
identifier, optional whitespace and a delimiter (comma, closing brace or
bracket); the identifier is wrapped in quotes unless it is exactly true, false
or null, in which case the match is emitted unchanged. -/
def stepUV : List Char → Option (List Char × List Char)
  | ':' :: rest =>
    match rest.dropWhile isRegexWs with
    | c1 :: r2 =>
      if isIdentStartV c1 then
        match (r2.dropWhile isIdentContV).dropWhile isRegexWs with
        | d :: r5 =>
          if d = ',' ∨ d = '}' ∨ d = ']' then
            some (':' :: (rest.takeWhile isRegexWs ++
              (if keepBare (c1 :: r2.takeWhile isIdentContV)
               then c1 :: r2.takeWhile isIdentContV
               else '"' :: c1 :: (r2.takeWhile isIdentContV ++ ['"'])) ++
              ((r2.dropWhile isIdentContV).takeWhile isRegexWs ++ [d])), r5)
          else none
        | [] => none
      else none
    | [] => none
  | _ => none

/-- fixUnquotedValues of the variant. -/
def fixUnquotedValues (l : List Char) : List Char := runScan stepUV l

/-- One match of the line-comment regex of the variant: two slashes and the
rest of the line (the dot atom stops at a line terminator, which stays). -/
def stepLineComment : List Char → Option (List Char × List Char)
  | '/' :: '/' :: r2 => some ([], r2.dropWhile (fun c => !(c == '\n' || c == '\r')))
  | _ => none

/-- The input past the first closing pair of a block comment, when one exists. -/
def closeBlock : List Char → Option (List Char)
  | a :: b :: r => if a = '*' ∧ b = '/' then some r else closeBlock (b :: r)
  | _ => none

/-- One match of the lazy block-comment regex of the variant: without a closing
pair there is no match and the opener stays. -/
def stepBlockComment : List Char → Option (List Char × List Char)
  | '/' :: '*' :: r2 =>
    (match closeBlock r2 with
     | some r => some ([], r)
     | none => none)
  | _ => none

/-- removeComments of the variant: line comments first, then block comments. -/
def removeComments (l : List Char) : List Char :=
  runScan stepBlockComment (runScan stepLineComment l)

/-- One match of a missing-comma regex: the closer x, whitespace holding at
least one newline, then the opener y; replaced by x, a comma, one newline, y. -/
def stepMC (x y : Char) (l : List Char) : Option (List Char × List Char) :=
  match l with
  | c :: rest =>
    if c = x then
      match rest.dropWhile isRegexWs with
      | c2 :: r5 =>
        if c2 = y ∧ (rest.takeWhile isRegexWs).contains '\n' then
          some ([x, ',', '\n', y], r5)
        else none
      | [] => none
    else none
  | [] => none

/-- fixMissingCommas of the variant: its five rewrites in source order. -/
def fixMissingCommas (l : List Char) : List Char :=
  runScan (stepMC '"' '{')
    (runScan (stepMC '}' '"')
      (runScan (stepMC ']' '[')
        (runScan (stepMC '}' '{')
          (runScan (stepMC '"' '"') l))))

/-- fixJson of the variant: parse as-is first; otherwise single quotes, unquoted
keys, trailing commas, unquoted values, comments and missing commas in that
order, then one final parse (this variant has no recursive string revival). -/
def fixJson (input : List Char) : JsonFixResult :=
  let processed0 := trimWs input
  match jsonParse processed0 with
  | .ok d => ⟨true, d, renderV d 0, [], []⟩
  | .error _ =>
    let p1 := fixSingleQuotes processed0
    let f1 : List (List Char) :=
      if p1 = processed0 then [] else [( "Converted single quotes to double quotes").data]
    let p2 := fixUnquotedKeys p1
    let f2 := if p2 = p1 then f1 else f1 ++ [( "Added quotes to unquoted keys").data]
    let p3 := fixTrailingCommas p2
    let f3 := if p3 = p2 then f2 else f2 ++ [( "Removed trailing commas").data]
    let p4 := fixUnquotedValues p3
    let f4 := if p4 = p3 then f3 else f3 ++ [( "Added quotes to unquoted string values").data]
    let p5 := removeComments p4
    let f5 := if p5 = p4 then f4 else f4 ++ [( "Removed JavaScript comments").data]
    let p6 := fixMissingCommas p5
    let f6 := if p6 = p5 then f5 else f5 ++ [( "Added missing commas between elements").data]
    match jsonParse p6 with
    | .ok d => ⟨true, d, renderV d 0, [], f6⟩
    | .error m => ⟨false, .null, [], [m], f6⟩

end JsonFixerV1

/-! Section 7: the concrete texts the claims name, written out as character
lists (quotes and braces included). -/

/-- The nested payload: an opening brace, key and value in single quotes, a
closing brace. -/
def nestedLeaf : List Char :=
  '{' :: '\'' :: (( "key").data ++ '\'' :: ':' :: ' ' :: '\'' :: (( "value").data ++ ['\'', '}']))

/-- The C1 input: a valid JSON object whose single field holds nestedLeaf as a
double-quoted string. -/
def reqValid : List Char :=
  '{' :: '"' :: (( "extractor_request").data ++ '"' :: ':' :: ' ' :: '"' :: (nestedLeaf ++ ['"', '}']))

/-- The single-quoted variant of reqValid, which is not valid JSON. -/
def reqSingle : List Char :=
  '{' :: '\'' :: (( "extractor_request").data ++ '\'' :: ':' :: ' ' :: '"' :: (nestedLeaf ++ ['"', '}']))

/-- The C3 input: a single-quoted object with an interior apostrophe. -/
def obrienText : List Char :=
  '{' :: '\'' :: (( "name").data ++ '\'' :: ':' :: ' ' :: '\'' :: 'O' :: '\'' :: (( "Brien").data ++ ['\'', '}']))

/-- The C4 input: a double-quoted string value holding a comma and a closing
brace, followed by a trailing comma. -/
def commaBraceText : List Char :=
  '{' :: '"' :: 'a' :: '"' :: ':' :: ' ' :: '"' :: ',' :: '}' :: '"' :: ',' :: '}' :: []

/-- The C5 input: an unquoted key and an unquoted bare-word value. -/
def bareText : List Char := '{' :: (( "a: b").data ++ ['}'])

/-- The C8 input: single-quoted keys with Python literal values. -/
def pythonText : List Char :=
  '{' :: '\'' :: (( "ok").data ++ '\'' :: ':' :: ' ' :: (( "True").data ++
    ',' :: ' ' :: '\'' :: (( "val").data ++ '\'' :: ':' :: ' ' :: (( "None").data ++ ['}']))))

/-! Section 7b: well-formedness of values, for the render/parse round trip.
A value that came out of the parser satisfies these; they are exactly what the
round trip needs: number literals of the JSON number grammar and objects with
pairwise distinct keys. -/

/-- The integer part of the JSON number grammar: a lone zero, or a nonzero
digit followed by digits. -/
def IntShape (ip : List Char) : Prop :=
  ip = ['0'] ∨ ∃ c ds, ip = c :: ds ∧ isDigit09 c = true ∧ c ≠ '0' ∧
    ∀ d ∈ ds, isDigit09 d = true

/-- The fraction part: absent, or a dot followed by at least one digit. -/
def FracShape (fp : List Char) : Prop :=
  fp = [] ∨ ∃ ds, fp = '.' :: ds ∧ ds ≠ [] ∧ ∀ d ∈ ds, isDigit09 d = true

/-- The exponent part: absent, or e or E, an optional sign, then digits. -/
def ExpShape (ep : List Char) : Prop :=
  ep = [] ∨ ∃ e sg ds, ep = e :: (sg ++ ds) ∧ (e = 'e' ∨ e = 'E') ∧
    (sg = [] ∨ sg = ['+'] ∨ sg = ['-']) ∧ ds ≠ [] ∧ ∀ d ∈ ds, isDigit09 d = true

/-- A complete JSON number literal. -/
def NumShape (lit : List Char) : Prop :=
  ∃ sgn ip fp ep, lit = sgn ++ ip ++ fp ++ ep ∧ (sgn = [] ∨ sgn = ['-']) ∧
    IntShape ip ∧ FracShape fp ∧ ExpShape ep

/-- A tail after which a number literal still parses to exactly itself: empty,
or starting with no digit, dot or exponent letter. -/
def NumDelim (rest : List Char) : Prop :=
  rest = [] ∨ ∃ c r, rest = c :: r ∧ isDigit09 c = false ∧ c ≠ '.' ∧ c ≠ 'e' ∧ c ≠ 'E'

/-- The tails a rendered value is followed by inside a larger rendering: the
end of input, a comma, or a newline. -/
def RDelim (rest : List Char) : Prop :=
  rest = [] ∨ (∃ r, rest = ',' :: r) ∨ (∃ r, rest = '\n' :: r)

mutual

/-- Well-formed value: number literals of the grammar, object keys pairwise
distinct, recursively. -/
def WfV : JValue → Prop
  | .null => True
  | .bool _ => True
  | .num lit => NumShape lit
  | .str _ => True
  | .arr items => WfItems items
  | .obj fields => (fields.map Prod.fst).Nodup ∧ WfFields fields

/-- All array elements well-formed. -/
def WfItems : List JValue → Prop
  | [] => True
  | x :: xs => WfV x ∧ WfItems xs

/-- All object member values well-formed. -/
def WfFields : List (List Char × JValue) → Prop
  | [] => True
  | kv :: fs => WfV kv.2 ∧ WfFields fs

end

/-! Section 8: whitespace-trim lemmas. -/

theorem dropWhile_dropWhile (p : Char → Bool) (l : List Char) :
    (l.dropWhile p).dropWhile p = l.dropWhile p := by
  induction l with
  | nil => rfl
  | cons c t ih =>
    by_cases h : p c
    · simp [List.dropWhile_cons, h, ih]
    · simp [List.dropWhile_cons, h]

theorem head_dropWhile_false (p : Char → Bool) (l : List Char) (c : Char)
    (h : (l.dropWhile p).head? = some c) : p c = false := by
  induction l with
  | nil => simp [List.dropWhile] at h
  | cons a t ih =>
    by_cases ha : p a
    · rw [List.dropWhile_cons_of_pos ha] at h
      exact ih h
    · rw [List.dropWhile_cons_of_neg ha] at h
      simp at h
      rw [← h]
      simp [ha]

theorem trimLeftWs_idem (l : List Char) : trimLeftWs (trimLeftWs l) = trimLeftWs l :=
  dropWhile_dropWhile isWsChar l

theorem trimRightWs_idem (l : List Char) : trimRightWs (trimRightWs l) = trimRightWs l := by
  unfold trimRightWs
  rw [List.reverse_reverse, dropWhile_dropWhile]

theorem trimLeftWs_cons_false (c : Char) (l : List Char) (h : isWsChar c = false) :
    trimLeftWs (c :: l) = c :: l :=
  List.dropWhile_cons_of_neg (by simp [h])

theorem trimLeftWs_eq_self (l : List Char)
    (h : ∀ c, l.head? = some c → isWsChar c = false) : trimLeftWs l = l := by
  cases l with
  | nil => rfl
  | cons c t => exact trimLeftWs_cons_false c t (h c rfl)

theorem trimRightWs_append_last (l : List Char) (c : Char) (h : isWsChar c = false) :
    trimRightWs (l ++ [c]) = l ++ [c] := by
  unfold trimRightWs
  rw [List.reverse_append]
  simp [List.dropWhile_cons, h]

theorem trimRightWs_prefix (l : List Char) : ∃ t, l = trimRightWs l ++ t := by
  unfold trimRightWs
  obtain ⟨s, hs⟩ := (List.dropWhile_suffix (l := l.reverse) isWsChar)
  exact ⟨s.reverse, by conv_lhs => rw [← List.reverse_reverse l, ← hs]; simp⟩

theorem head_trimRightWs (l : List Char) (c : Char)
    (h : (trimRightWs l).head? = some c) : l.head? = some c := by
  obtain ⟨t, ht⟩ := trimRightWs_prefix l
  rw [ht]
  cases hr : trimRightWs l with
  | nil => rw [hr] at h; simp at h
  | cons a s => rw [hr] at h; simpa using h

theorem trimWs_idem (l : List Char) : trimWs (trimWs l) = trimWs l := by
  unfold trimWs
  rw [trimLeftWs_eq_self (trimRightWs (trimLeftWs l)), trimRightWs_idem]
  intro c hc
  exact head_dropWhile_false isWsChar l c (head_trimRightWs _ c hc)

theorem jsonParse_trimWs (l : List Char) : jsonParse (trimWs l) = jsonParse l := by
  unfold jsonParse
  rw [trimWs_idem]

/-! Section 9: the scan driver, fuel-independent. -/

/-- A step that always leaves a strictly shorter rest. -/
def StepShrinks (step : List Char → Option (List Char × List Char)) : Prop :=
  ∀ l out r, step l = some (out, r) → r.length < l.length

theorem scanGas_eq_runScan (step : List Char → Option (List Char × List Char))
    (hs : StepShrinks step) :
    ∀ (n f : Nat) (l : List Char), l.length ≤ n → l.length < f →
      scanGas step f l = runScan step l := by
  intro n
  induction n with
  | zero =>
    intro f l hn hf
    match l, hn with
    | [], _ =>
      match f, hf with
      | f + 1, _ => rfl
  | succ n ih =>
    intro f l hn hf
    match l with
    | [] =>
      match f, hf with
      | f + 1, _ => rfl
    | c :: rest =>
      match f, hf with
      | f + 1, hf =>
        simp only [List.length_cons] at hn hf
        cases hstep : step (c :: rest) with
        | none =>
          have h1 : scanGas step (f + 1) (c :: rest) = c :: scanGas step f rest := by
            simp [scanGas, hstep]
          have h2 : runScan step (c :: rest) = c :: scanGas step (rest.length + 1) rest := by
            simp [runScan, scanGas, hstep]
          rw [h1, h2, ih f rest (by omega) (by omega),
              ih (rest.length + 1) rest (by omega) (by omega)]
        | some pr =>
          obtain ⟨out, r⟩ := pr
          have hlen : r.length < rest.length + 1 := hs (c :: rest) out r hstep
          have h1 : scanGas step (f + 1) (c :: rest) = out ++ scanGas step f r := by
            simp [scanGas, hstep]
          have h2 : runScan step (c :: rest) = out ++ scanGas step (rest.length + 1) r := by
            simp [runScan, scanGas, hstep]
          rw [h1, h2, ih f r (by omega) (by omega),
              ih (rest.length + 1) r (by omega) (by omega)]

theorem runScan_some (step : List Char → Option (List Char × List Char))
    (hs : StepShrinks step) (c : Char) (rest out r : List Char)
    (h : step (c :: rest) = some (out, r)) :
    runScan step (c :: rest) = out ++ runScan step r := by
  have h2 : runScan step (c :: rest) = out ++ scanGas step (rest.length + 1) r := by
    simp [runScan, scanGas, h]
  rw [h2, scanGas_eq_runScan step hs r.length (rest.length + 1) r (le_refl _)
      (by have := hs (c :: rest) out r h; simp at this; omega)]

theorem runScan_none (step : List Char → Option (List Char × List Char))
    (hs : StepShrinks step) (c : Char) (rest : List Char)
    (h : step (c :: rest) = none) :
    runScan step (c :: rest) = c :: runScan step rest := by
  simp [runScan, scanGas, h]

/-! Section 10: every step function leaves a strictly shorter rest, so the
runScan equations apply to each stage. -/

theorem dropWhile_len_le (p : Char → Bool) (l : List Char) :
    (l.dropWhile p).length ≤ l.length :=
  (List.dropWhile_sublist p).length_le

namespace JsonFixer

theorem readDQbody_len : ∀ l : List Char, (readDQbody l).2.length ≤ l.length
  | [] => by simp [readDQbody]
  | c :: rest => by
    by_cases hbs : c = '\\'
    · cases rest with
      | nil => simp [readDQbody, hbs]
      | cons c2 r2 =>
        have ih := readDQbody_len r2
        cases h : readDQbody r2 with
        | mk b r => simp [readDQbody, hbs, h] at ih ⊢; omega
    · by_cases hdq : c = '"'
      · rw [readDQbody.eq_def]; simp [hbs, hdq]
      · have ih := readDQbody_len rest
        cases h : readDQbody rest with
        | mk b r =>
          rw [readDQbody.eq_def]
          simp [hbs, hdq, h]
          simp [h] at ih
          omega

theorem readSQskipBody_len : ∀ l : List Char, (readSQskipBody l).2.length ≤ l.length
  | [] => by simp [readSQskipBody]
  | c :: rest => by
    by_cases hsq : c = '\''
    · rw [readSQskipBody.eq_def]; simp [hsq]
    · by_cases hbs : c = '\\'
      · cases rest with
        | nil => rw [readSQskipBody.eq_def]; simp [hsq, hbs]
        | cons c2 r2 =>
          have ih := readSQskipBody_len r2
          cases h : readSQskipBody r2 with
          | mk b r =>
            rw [readSQskipBody.eq_def]
            simp [hsq, hbs, h]
            simp [h] at ih
            omega
      · have ih := readSQskipBody_len rest
        cases h : readSQskipBody rest with
        | mk b r =>
          rw [readSQskipBody.eq_def]
          simp [hsq, hbs, h]
          simp [h] at ih
          omega

theorem readSQc_esc_eq (n : Char) (r2 : List Char)
    (hx : ∀ h1 h2 r3, ¬(n = 'x' ∧ r2 = h1 :: h2 :: r3))
    (hu : ∀ h1 h2 h3 h4 r3, ¬(n = 'u' ∧ r2 = h1 :: h2 :: h3 :: h4 :: r3)) :
    readSQc ('\\' :: n :: r2) =
      (match sqEscape n with
       | some ch => (ch :: (readSQc r2).1, (readSQc r2).2)
       | none => (n :: (readSQc r2).1, (readSQc r2).2)) := by
  rw [readSQc.eq_def]
  split
  · rename_i hpat
    simp at hpat
  · rename_i hpat
    simp at hpat
  · rename_i hpat
    simp at hpat
    exact absurd hpat (hx _ _ _)
  · rename_i hpat
    simp at hpat
    exact absurd hpat (hu _ _ _ _ _)
  · rename_i hpat
    simp at hpat
    obtain ⟨rfl, rfl⟩ := hpat
    cases hsq2 : sqEscape n with
    | some ch2 =>
      cases hr : readSQc r2 with
      | mk b r => simp [hr]
    | none =>
      cases hr : readSQc r2 with
      | mk b r => simp [hr]
  · rename_i hpat
    simp at hpat
  · exfalso
    rename_i hpat
    simp at hpat
    obtain ⟨rfl, rfl⟩ := hpat
    simp_all

theorem readSQc_other_eq (c : Char) (rest : List Char) (hq : c ≠ '\'') (hbs : c ≠ '\\') :
    readSQc (c :: rest) = (c :: (readSQc rest).1, (readSQc rest).2) := by
  rw [readSQc.eq_def]
  split
  · rename_i hpat
    simp at hpat
  · rename_i hpat
    simp at hpat
    exact absurd hpat.1 hq
  · rename_i hpat
    simp at hpat
    exact absurd hpat.1 hbs
  · rename_i hpat
    simp at hpat
    exact absurd hpat.1 hbs
  · rename_i hpat
    simp at hpat
    exact absurd hpat.1 hbs
  · rename_i hpat
    simp at hpat
    exact absurd hpat.1 hbs
  · rename_i hpat
    simp at hpat
    obtain ⟨rfl, rfl⟩ := hpat
    cases hr : readSQc rest with
    | mk b r => simp [hr]

theorem readSQc_len : ∀ l : List Char, (readSQc l).2.length ≤ l.length := by
  intro l
  induction l using readSQc.induct with
  | case1 => simp [readSQc]
  | case2 rest => simp [readSQc]
  | case3 h1 h2 r3 v hv sgn r1 heq ih =>
    simp only [readSQc, hv, heq] at ih ⊢
    simp at ih ⊢
    omega
  | case4 h1 h2 r3 hv sgn r1 heq ih =>
    simp only [readSQc, hv, heq] at ih ⊢
    simp at ih ⊢
    omega
  | case5 h1 h2 h3 h4 r3 v hv sgn r1 heq ih =>
    simp only [readSQc, hv, heq] at ih ⊢
    simp at ih ⊢
    omega
  | case6 h1 h2 h3 h4 r3 hv sgn r1 heq ih =>
    simp only [readSQc, hv, heq] at ih ⊢
    simp at ih ⊢
    omega
  | case7 n r2 hx hu ch hch sgn r1 heq ih =>
    rw [readSQc_esc_eq n r2 (fun h1 h2 r3 hc => hx h1 h2 r3 hc.1 hc.2)
      (fun h1 h2 h3 h4 r3 hc => hu h1 h2 h3 h4 r3 hc.1 hc.2)]
    simp only [hch]
    simp at ih ⊢
    omega
  | case8 n r2 hx hu hch sgn r1 heq ih =>
    rw [readSQc_esc_eq n r2 (fun h1 h2 r3 hc => hx h1 h2 r3 hc.1 hc.2)
      (fun h1 h2 h3 h4 r3 hc => hu h1 h2 h3 h4 r3 hc.1 hc.2)]
    simp only [hch]
    simp at ih ⊢
    omega
  | case9 => simp [readSQc]
  | case10 c rest hq hx hu hbs hnil sgn r1 heq ih =>
    have hq2 : c ≠ '\'' := fun h => hq h
    have hbs2 : c ≠ '\\' := by
      intro h
      cases rest with
      | nil => exact hnil h rfl
      | cons n r2 => exact hbs n r2 h rfl
    rw [readSQc_other_eq c rest hq2 hbs2]
    simp at ih ⊢
    omega

theorem blockCommentRest_len : ∀ l : List Char, (blockCommentRest l).length ≤ l.length
  | [] => by simp [blockCommentRest]
  | [c] => by simp [blockCommentRest]
  | a :: b :: r => by
    have ih := blockCommentRest_len (b :: r)
    by_cases h : a = '*' ∧ b = '/'
    · simp [blockCommentRest, h]; omega
    · simp [blockCommentRest, h] at ih ⊢; omega

theorem pyLit_some_len : ∀ l out r, pyLit l = some (out, r) → r.length < l.length := by
  intro l out r h
  rw [pyLit.eq_def] at h
  split at h
  all_goals try (split at h)
  all_goals simp_all
  all_goals omega

theorem stepPy_shrinks : StepShrinks stepPy := by
  intro l out r h
  cases l with
  | nil => simp [stepPy] at h
  | cons c rest =>
    by_cases hdq : c = '"'
    · simp [stepPy, hdq, readDoubleQuotedString] at h
      have hlen := readDQbody_len rest
      cases hb : readDQbody rest with
      | mk b rr =>
        rw [hb] at h
        simp at h
        rw [hb] at hlen
        simp at hlen
        simp [← h.2]
        omega
    · by_cases hsq : c = '\''
      · simp [stepPy, hdq, hsq, readSingleQuotedString] at h
        have hlen := readSQc_len rest
        cases hb : readSQc rest with
        | mk b rr =>
          rw [hb] at h
          simp at h
          rw [hb] at hlen
          simp at hlen
          simp [← h.2]
          omega
      · simp [stepPy, hdq, hsq] at h
        exact pyLit_some_len _ _ _ h

theorem stepRC_shrinks : StepShrinks stepRC := by
  intro l out r h
  cases l with
  | nil => simp [stepRC] at h
  | cons c rest =>
    by_cases hdq : c = '"'
    · simp [stepRC, hdq, readDoubleQuotedString] at h
      have hlen := readDQbody_len rest
      cases hb : readDQbody rest with
      | mk b rr =>
        rw [hb] at h
        simp at h
        rw [hb] at hlen
        simp at hlen
        simp [← h.2]
        omega
    · by_cases hsq : c = '\''
      · simp [stepRC, hdq, hsq] at h
        have hlen := readSQskipBody_len rest
        cases hb : readSQskipBody rest with
        | mk b rr =>
          rw [hb] at h
          simp at h
          rw [hb] at hlen
          simp at hlen
          simp [← h.2]
          omega
      · by_cases hsl : c = '/'
        · simp only [stepRC, hdq, hsq, hsl, if_pos, if_neg, ite_true, ite_false] at h
          simp at h
          cases rest with
          | nil => simp at h
          | cons c2 r2 =>
            by_cases h2 : c2 = '/'
            · subst h2
              simp at h
              have := dropWhile_len_le (fun x => x != '\n') r2
              simp [← h.2]
              omega
            · by_cases h3 : c2 = '*'
              · subst h3
                simp at h
                have := blockCommentRest_len r2
                simp [← h.2]
                omega
              · simp [h2, h3] at h
        · simp [stepRC, hdq, hsq, hsl] at h

theorem stepUK_shrinks : StepShrinks stepUK := by
  intro l out r h
  cases l with
  | nil => simp [stepUK] at h
  | cons c rest =>
    by_cases hc : c = '{' ∨ c = ','
    · simp only [stepUK, hc, if_pos] at h
      cases hd : rest.dropWhile isRegexWs with
      | nil => rw [hd] at h; simp at h
      | cons c1 r2 =>
        rw [hd] at h
        have h2 : r2.length < rest.length + 1 := by
          have := dropWhile_len_le isRegexWs rest
          rw [hd] at this
          simp at this
          omega
        by_cases hid : isIdentStartK c1
        · simp only [hid, if_pos] at h
          cases hd2 : (r2.dropWhile isIdentContK).dropWhile isRegexWs with
          | nil => rw [hd2] at h; simp at h
          | cons c5 r5 =>
            rw [hd2] at h
            have h5 : r5.length < r2.length + 1 := by
              have ha := dropWhile_len_le isIdentContK r2
              have hb := dropWhile_len_le isRegexWs (r2.dropWhile isIdentContK)
              rw [hd2] at hb
              simp at hb
              omega
            split at h
            · rename_i r5b hpat
              simp at hpat
              obtain ⟨e1, e2⟩ := hpat
              subst e2
              simp at h
              simp [← h.2]
              omega
            · simp at h
        · simp [hid] at h
    · simp [stepUK, hc] at h

theorem stepUV_shrinks : StepShrinks JsonFixerV1.stepUV := by
  intro l out r h
  cases l with
  | nil => simp [JsonFixerV1.stepUV] at h
  | cons c0 rest =>
    by_cases hc : c0 = ':'
    · subst hc
      simp only [JsonFixerV1.stepUV] at h
      cases hd : rest.dropWhile isRegexWs with
      | nil => rw [hd] at h; simp at h
      | cons c1 r2 =>
        rw [hd] at h
        have h2 : r2.length < rest.length + 1 := by
          have := dropWhile_len_le isRegexWs rest
          rw [hd] at this
          simp at this
          omega
        by_cases hid : JsonFixerV1.isIdentStartV c1
        · simp only [hid, if_pos] at h
          cases hd2 : (r2.dropWhile JsonFixerV1.isIdentContV).dropWhile isRegexWs with
          | nil => rw [hd2] at h; simp at h
          | cons c5 r5 =>
            rw [hd2] at h
            have h5 : r5.length < r2.length + 1 := by
              have ha := dropWhile_len_le JsonFixerV1.isIdentContV r2
              have hb := dropWhile_len_le isRegexWs (r2.dropWhile JsonFixerV1.isIdentContV)
              rw [hd2] at hb
              simp at hb
              omega
            by_cases hdl : c5 = ',' ∨ c5 = '}' ∨ c5 = ']'
            · simp only [hdl, if_pos] at h
              simp at h
              simp [← h.2]
              omega
            · simp [hdl] at h
        · simp [hid] at h
    · rw [JsonFixerV1.stepUV.eq_def] at h
      split at h
      · rename_i hpat
        simp at hpat
        exact absurd hpat.1 hc
      · simp at h

end JsonFixer

/-! Section 11: list-run helpers and the per-stage rewrite lemmas. -/

theorem takeWhile_append_all (p : Char → Bool) (w r : List Char)
    (hw : ∀ c ∈ w, p c = true) : (w ++ r).takeWhile p = w ++ r.takeWhile p := by
  induction w with
  | nil => simp
  | cons c t ih =>
    simp only [List.cons_append, List.takeWhile_cons, hw c (by simp)]
    simp [ih (fun x hx => hw x (by simp [hx]))]

theorem dropWhile_append_all (p : Char → Bool) (w r : List Char)
    (hw : ∀ c ∈ w, p c = true) : (w ++ r).dropWhile p = r.dropWhile p := by
  induction w with
  | nil => simp
  | cons c t ih =>
    simp only [List.cons_append, List.dropWhile_cons, hw c (by simp)]
    simp [ih (fun x hx => hw x (by simp [hx]))]

theorem dropWhile_eq_self_head (p : Char → Bool) (l : List Char)
    (h : ∀ c, l.head? = some c → p c = false) : l.dropWhile p = l := by
  cases l with
  | nil => rfl
  | cons c t => exact List.dropWhile_cons_of_neg (by simp [h c rfl])

theorem takeWhile_eq_nil_head (p : Char → Bool) (l : List Char)
    (h : ∀ c, l.head? = some c → p c = false) : l.takeWhile p = [] := by
  cases l with
  | nil => rfl
  | cons c t => exact List.takeWhile_cons_of_neg (by simp [h c rfl])

namespace JsonFixer

/-- A regex whitespace character is no identifier character (either class). -/
theorem regexWs_not_ident (c : Char) (h : isRegexWs c = true) :
    isIdentContK c = false ∧ JsonFixerV1.isIdentContV c = false := by
  simp only [isRegexWs, isWsChar, Bool.or_eq_true, beq_iff_eq] at h
  rcases h with ((((h | h) | h) | h) | h) | h <;> subst h <;> constructor <;> rfl

/-- An identifier-start character is no regex whitespace (either class). -/
theorem identStart_not_ws (c : Char) :
    (isIdentStartK c = true → isRegexWs c = false) ∧
    (JsonFixerV1.isIdentStartV c = true → isRegexWs c = false) := by
  constructor <;> intro h <;> by_contra hw <;>
    simp only [Bool.not_eq_false] at hw
  · have := (regexWs_not_ident c hw).1
    simp [isIdentContK, h] at this
  · have := (regexWs_not_ident c hw).2
    simp [JsonFixerV1.isIdentContV, h] at this

/-- The copying loop of readDoubleQuotedString consumes a clean body up to its
closing quote verbatim. -/
theorem readDQbody_clean : ∀ body rest : List Char,
    (∀ c ∈ body, c ≠ '"' ∧ c ≠ '\\') →
    readDQbody (body ++ '"' :: rest) = (body ++ ['"'], rest)
  | [], rest, _ => by rw [readDQbody.eq_def]; simp
  | c :: body, rest, h => by
    have hc := h c (by simp)
    have ih := readDQbody_clean body rest (fun x hx => h x (by simp [hx]))
    rw [List.cons_append, readDQbody.eq_def]
    simp [hc.2, hc.1, ih]

/-- The decoding loop of readSingleQuotedString consumes an escape-free body up
to the first single quote, whatever follows that quote. -/
theorem readSQc_clean : ∀ content rest : List Char,
    (∀ c ∈ content, c ≠ '\'' ∧ c ≠ '\\') →
    readSQc (content ++ '\'' :: rest) = (content, rest)
  | [], rest, _ => by rw [readSQc.eq_def]; simp
  | c :: content, rest, h => by
    have hc := h c (by simp)
    have ih := readSQc_clean content rest (fun x hx => h x (by simp [hx]))
    rw [List.cons_append, readSQc_other_eq c _ hc.1 hc.2, ih]

/-- readSingleQuotedString on an escape-free body: the first single quote closes
the string regardless of the character after it, and the body is re-emitted as
a JSON double-quoted literal. -/
theorem readSingleQuotedString_clean (content rest : List Char)
    (h : ∀ c ∈ content, c ≠ '\'' ∧ c ≠ '\\') :
    readSingleQuotedString (content ++ '\'' :: rest) =
      ('"' :: (escapeForJson content ++ ['"']), rest) := by
  unfold readSingleQuotedString
  rw [readSQc_clean content rest h]

/-- removeComments copies a double-quoted string with a clean body verbatim:
comment openers inside the body are not treated as comments. -/
theorem removeComments_string (body rest : List Char)
    (h : ∀ c ∈ body, c ≠ '"' ∧ c ≠ '\\') :
    removeComments ('"' :: (body ++ '"' :: rest)) =
      '"' :: (body ++ '"' :: removeComments rest) := by
  have hstep : stepRC ('"' :: (body ++ '"' :: rest)) =
      some ('"' :: (body ++ ['"']), rest) := by
    simp [stepRC, readDoubleQuotedString, readDQbody_clean body rest h]
  have := runScan_some stepRC stepRC_shrinks '"' (body ++ '"' :: rest) _ _ hstep
  unfold removeComments
  rw [this]
  simp

/-- convertPythonToJson rewrites a right-boundary None to null and scans on. -/
theorem convertPythonToJson_none (rest : List Char) (hb : pyBoundary rest = true) :
    convertPythonToJson (( "None").data ++ rest) =
      ( "null").data ++ convertPythonToJson rest := by
  have hstep : stepPy (( "None").data ++ rest) = some (( "null").data, rest) := by
    simp [stepPy, pyLit, hb]
  exact runScan_some stepPy stepPy_shrinks 'N' _ _ _ hstep

/-- convertPythonToJson rewrites a right-boundary True to true and scans on. -/
theorem convertPythonToJson_true (rest : List Char) (hb : pyBoundary rest = true) :
    convertPythonToJson (( "True").data ++ rest) =
      ( "true").data ++ convertPythonToJson rest := by
  have hstep : stepPy (( "True").data ++ rest) = some (( "true").data, rest) := by
    simp [stepPy, pyLit, hb]
  exact runScan_some stepPy stepPy_shrinks 'T' _ _ _ hstep

/-- convertPythonToJson rewrites a right-boundary False to false and scans on. -/
theorem convertPythonToJson_false (rest : List Char) (hb : pyBoundary rest = true) :
    convertPythonToJson (( "False").data ++ rest) =
      ( "false").data ++ convertPythonToJson rest := by
  have hstep : stepPy (( "False").data ++ rest) = some (( "false").data, rest) := by
    simp [stepPy, pyLit, hb]
  exact runScan_some stepPy stepPy_shrinks 'F' _ _ _ hstep

end JsonFixer

/-! Section 12: the structural-repair rewrites on a bare identifier. -/

namespace JsonFixer

/-- A value delimiter is neither whitespace nor an identifier character. -/
theorem delim_not_ws_ident (d : Char) (hd : d = ',' ∨ d = '}' ∨ d = ']') :
    isRegexWs d = false ∧ JsonFixerV1.isIdentContV d = false ∧ isIdentContK d = false := by
  rcases hd with h | h | h <;> subst h <;> exact ⟨rfl, rfl, rfl⟩

/-- One match of the unquoted-value regex on a bare identifier between a colon
and a delimiter. -/
theorem stepUV_bare (w1 idT w2 rest : List Char) (c1 d : Char)
    (hw1 : ∀ c ∈ w1, isRegexWs c = true) (hw2 : ∀ c ∈ w2, isRegexWs c = true)
    (hc1 : JsonFixerV1.isIdentStartV c1 = true)
    (hid : ∀ c ∈ idT, JsonFixerV1.isIdentContV c = true)
    (hd : d = ',' ∨ d = '}' ∨ d = ']') :
    JsonFixerV1.stepUV (':' :: (w1 ++ c1 :: (idT ++ (w2 ++ d :: rest)))) =
      some (':' :: (w1 ++ (if JsonFixerV1.keepBare (c1 :: idT) then c1 :: idT
        else '"' :: c1 :: (idT ++ ['"'])) ++ (w2 ++ [d])), rest) := by
  have hdfacts := delim_not_ws_ident d hd
  have hdrop1 : (w1 ++ c1 :: (idT ++ (w2 ++ d :: rest))).dropWhile isRegexWs =
      c1 :: (idT ++ (w2 ++ d :: rest)) := by
    rw [dropWhile_append_all isRegexWs w1 _ hw1]
    exact dropWhile_eq_self_head isRegexWs _
      (fun c hc => by simp at hc; rw [← hc]; exact (identStart_not_ws c1).2 hc1 ▸ rfl)
  have htake1 : (w1 ++ c1 :: (idT ++ (w2 ++ d :: rest))).takeWhile isRegexWs = w1 := by
    rw [takeWhile_append_all isRegexWs w1 _ hw1]
    rw [takeWhile_eq_nil_head isRegexWs _
      (fun c hc => by simp at hc; rw [← hc]; exact (identStart_not_ws c1).2 hc1)]
    simp
  have hheadrest : ∀ c : Char, (w2 ++ d :: rest).head? = some c →
      JsonFixerV1.isIdentContV c = false := by
    intro c hc
    cases w2 with
    | nil => simp at hc; rw [← hc]; exact hdfacts.2.1
    | cons a t =>
      simp at hc
      rw [← hc]
      exact (regexWs_not_ident a (hw2 a (by simp))).2
  have hdrop2 : (idT ++ (w2 ++ d :: rest)).dropWhile JsonFixerV1.isIdentContV =
      w2 ++ d :: rest := by
    rw [dropWhile_append_all _ idT _ hid]
    exact dropWhile_eq_self_head _ _ hheadrest
  have htake2 : (idT ++ (w2 ++ d :: rest)).takeWhile JsonFixerV1.isIdentContV = idT := by
    rw [takeWhile_append_all _ idT _ hid]
    rw [takeWhile_eq_nil_head _ _ hheadrest]
    simp
  have hdrop3 : (w2 ++ d :: rest).dropWhile isRegexWs = d :: rest := by
    rw [dropWhile_append_all isRegexWs w2 _ hw2]
    exact dropWhile_eq_self_head isRegexWs _
      (fun c hc => by simp at hc; rw [← hc]; exact hdfacts.1)
  have htake3 : (w2 ++ d :: rest).takeWhile isRegexWs = w2 := by
    rw [takeWhile_append_all isRegexWs w2 _ hw2]
    rw [takeWhile_eq_nil_head isRegexWs _
      (fun c hc => by simp at hc; rw [← hc]; exact hdfacts.1)]
    simp
  simp only [JsonFixerV1.stepUV, hdrop1, htake1, hdrop2, htake2, hdrop3, htake3,
    hc1, if_pos, hd]

/-- fixUnquotedValues wraps a bare identifier value in quotes unless it is
exactly true, false or null, and scans on after the delimiter. -/
theorem fixUnquotedValues_bare (w1 idT w2 rest : List Char) (c1 d : Char)
    (hw1 : ∀ c ∈ w1, isRegexWs c = true) (hw2 : ∀ c ∈ w2, isRegexWs c = true)
    (hc1 : JsonFixerV1.isIdentStartV c1 = true)
    (hid : ∀ c ∈ idT, JsonFixerV1.isIdentContV c = true)
    (hd : d = ',' ∨ d = '}' ∨ d = ']') :
    JsonFixerV1.fixUnquotedValues (':' :: (w1 ++ c1 :: (idT ++ (w2 ++ d :: rest)))) =
      (':' :: (w1 ++ (if JsonFixerV1.keepBare (c1 :: idT) then c1 :: idT
        else '"' :: c1 :: (idT ++ ['"'])) ++ (w2 ++ [d]))) ++
        JsonFixerV1.fixUnquotedValues rest := by
  exact runScan_some JsonFixerV1.stepUV stepUV_shrinks ':' _ _ _
    (stepUV_bare w1 idT w2 rest c1 d hw1 hw2 hc1 hid hd)

/-- One match of the unquoted-key regex on a bare identifier between an opener
(or comma) and a colon. -/
theorem stepUK_bare (w1 idT w2 rest : List Char) (p c1 : Char)
    (hp : p = '{' ∨ p = ',')
    (hw1 : ∀ c ∈ w1, isRegexWs c = true) (hw2 : ∀ c ∈ w2, isRegexWs c = true)
    (hc1 : isIdentStartK c1 = true)
    (hid : ∀ c ∈ idT, isIdentContK c = true) :
    stepUK (p :: (w1 ++ c1 :: (idT ++ (w2 ++ ':' :: rest)))) =
      some (p :: (w1 ++ '"' :: c1 :: (idT ++ '"' :: (w2 ++ [':']))), rest) := by
  have hstartws : isRegexWs c1 = false := (identStart_not_ws c1).1 hc1
  have hdrop1 : (w1 ++ c1 :: (idT ++ (w2 ++ ':' :: rest))).dropWhile isRegexWs =
      c1 :: (idT ++ (w2 ++ ':' :: rest)) := by
    rw [dropWhile_append_all isRegexWs w1 _ hw1]
    exact dropWhile_eq_self_head isRegexWs _
      (fun c hc => by simp at hc; rw [← hc]; exact hstartws)
  have htake1 : (w1 ++ c1 :: (idT ++ (w2 ++ ':' :: rest))).takeWhile isRegexWs = w1 := by
    rw [takeWhile_append_all isRegexWs w1 _ hw1]
    rw [takeWhile_eq_nil_head isRegexWs _
      (fun c hc => by simp at hc; rw [← hc]; exact hstartws)]
    simp
  have hheadrest : ∀ c : Char, (w2 ++ ':' :: rest).head? = some c →
      isIdentContK c = false := by
    intro c hc
    cases w2 with
    | nil => simp at hc; rw [← hc]; rfl
    | cons a t =>
      simp at hc
      rw [← hc]
      exact (regexWs_not_ident a (hw2 a (by simp))).1
  have hdrop2 : (idT ++ (w2 ++ ':' :: rest)).dropWhile isIdentContK = w2 ++ ':' :: rest := by
    rw [dropWhile_append_all _ idT _ hid]
    exact dropWhile_eq_self_head _ _ hheadrest
  have htake2 : (idT ++ (w2 ++ ':' :: rest)).takeWhile isIdentContK = idT := by
    rw [takeWhile_append_all _ idT _ hid]
    rw [takeWhile_eq_nil_head _ _ hheadrest]
    simp
  have hdrop3 : (w2 ++ ':' :: rest).dropWhile isRegexWs = ':' :: rest := by
    rw [dropWhile_append_all isRegexWs w2 _ hw2]
    exact dropWhile_eq_self_head isRegexWs _ (fun c hc => by simp at hc; rw [← hc]; rfl)
  have htake3 : (w2 ++ ':' :: rest).takeWhile isRegexWs = w2 := by
    rw [takeWhile_append_all isRegexWs w2 _ hw2]
    rw [takeWhile_eq_nil_head isRegexWs _ (fun c hc => by simp at hc; rw [← hc]; rfl)]
    simp
  simp only [stepUK, hp, if_pos, hdrop1, htake1, hdrop2, htake2, hdrop3, htake3, hc1]

/-- fixUnquotedKeys wraps a bare identifier key in double quotes and scans on
after the colon. -/
theorem fixUnquotedKeys_bare (w1 idT w2 rest : List Char) (p c1 : Char)
    (hp : p = '{' ∨ p = ',')
    (hw1 : ∀ c ∈ w1, isRegexWs c = true) (hw2 : ∀ c ∈ w2, isRegexWs c = true)
    (hc1 : isIdentStartK c1 = true)
    (hid : ∀ c ∈ idT, isIdentContK c = true) :
    fixUnquotedKeys (p :: (w1 ++ c1 :: (idT ++ (w2 ++ ':' :: rest)))) =
      (p :: (w1 ++ '"' :: c1 :: (idT ++ '"' :: (w2 ++ [':'])))) ++ fixUnquotedKeys rest := by
  exact runScan_some stepUK stepUK_shrinks p _ _ _
    (stepUK_bare w1 idT w2 rest p c1 hp hw1 hw2 hc1 hid)

end JsonFixer

/-! Section 13: the recursive string reviver, depth behavior. -/

namespace JsonFixer

/-- Past the depth cap, the reviver returns any value unchanged. -/
theorem rps_past_cap (v : JValue) (d : Nat) (h : 10 < d) :
    recursivelyParseStrings v d = v := by
  unfold recursivelyParseStrings
  have h0 : 11 - d = 0 := by omega
  rw [h0]
  rfl

/-- A string leaf whose trim is brace- or bracket-delimited and parses is
replaced by the recursively revived parse, within the depth cap. -/
theorem rps_str_parsed (s : List Char) (d : Nat) (p : JValue) (hd : d ≤ 10)
    (hdelim : (trimWs s).head? = some '{' ∧ (trimWs s).getLast? = some '}' ∨
              (trimWs s).head? = some '[' ∧ (trimWs s).getLast? = some ']')
    (hp : tryParseJsonOrPython (trimWs s) = some p) :
    recursivelyParseStrings (.str s) d = recursivelyParseStrings p (d + 1) := by
  unfold recursivelyParseStrings
  have h1 : 11 - d = (10 - d) + 1 := by omega
  have h2 : 11 - (d + 1) = 10 - d := by omega
  rw [h1, h2]
  simp only [rpsGas]
  rw [if_pos hdelim, hp]

/-- A successful labelSplit implies the scanned text heads with no brace or
bracket opener. -/
theorem labelSplit_some_head : ∀ (acc l : List Char) (pre span : List Char),
    labelSplit acc l = some (pre, span) →
    ∀ c, l.head? = some c → ¬(c = '{' ∨ c = '[') := by
  intro acc l pre span h c hc hbr
  cases l with
  | nil => simp [labelSplit] at h
  | cons a rest =>
    simp at hc
    subst hc
    simp only [labelSplit] at h
    rw [if_pos hbr] at h
    simp at h

/-- A string leaf matching the label regex with a parsing span is replaced by
the sentinel object keeping the trimmed prefix, within the depth cap. -/
theorem rps_str_label (s : List Char) (d : Nat) (pre span : List Char) (p : JValue)
    (hd : d ≤ 10)
    (hsplit : labelSplit [] (trimWs s) = some (pre, span))
    (hp : tryParseJsonOrPython span = some p) :
    recursivelyParseStrings (.str s) d =
      .obj [(( "_prefix").data, .str (trimWs pre)),
            (( "_data").data, recursivelyParseStrings p (d + 1))] := by
  unfold recursivelyParseStrings
  have h1 : 11 - d = (10 - d) + 1 := by omega
  have h2 : 11 - (d + 1) = 10 - d := by omega
  rw [h1, h2]
  simp only [rpsGas]
  have hnotbr : ¬((trimWs s).head? = some '{' ∧ (trimWs s).getLast? = some '}' ∨
      (trimWs s).head? = some '[' ∧ (trimWs s).getLast? = some ']') := by
    rintro (⟨hh, _⟩ | ⟨hh, _⟩)
    · exact labelSplit_some_head [] _ pre span hsplit '{' hh (Or.inl rfl)
    · exact labelSplit_some_head [] _ pre span hsplit '[' hh (Or.inr rfl)
  rw [if_neg hnotbr, hsplit]
  simp only [hp]

end JsonFixer

/-! Section 13b: the render/parse round trip, part 1: characters and strings. -/

theorem digit_not_ws (c : Char) (h : isDigit09 c = true) : isWsChar c = false := by
  cases hc : isWsChar c with
  | false => rfl
  | true =>
    exfalso
    simp [isWsChar] at hc
    rcases hc with ((rfl | rfl) | rfl) | rfl <;> simp [isDigit09] at h

theorem hexVal_hexDigitChar (n : Nat) (h : n < 16) :
    hexVal (hexDigitChar n) = some n := by
  interval_cases n <;> rfl

theorem hex4Char_00 (n : Nat) (h : n < 16) :
    hex4Char '0' '0' '0' (hexDigitChar n) = some (Char.ofNat n) := by
  unfold hex4Char
  rw [show hexVal '0' = some 0 from rfl, hexVal_hexDigitChar n h]
  have harith : ((0 * 16 + 0) * 16 + 0) * 16 + n = n := by omega
  simp [harith]

theorem hex4Char_0hex (n : Nat) (h : n < 256) :
    hex4Char '0' '0' (hexDigitChar (n / 16)) (hexDigitChar (n % 16)) =
      some (Char.ofNat n) := by
  unfold hex4Char
  rw [show hexVal '0' = some 0 from rfl, hexVal_hexDigitChar (n / 16) (by omega),
    hexVal_hexDigitChar (n % 16) (by omega)]
  have harith : n / 16 * 16 + n % 16 = n := by omega
  simp [harith]

theorem parseStrBody_round : ∀ (s acc rest : List Char),
    parseStrBody acc (escapeForJson s ++ '"' :: rest) = .ok (acc.reverse ++ s, rest)
  | [], acc, rest => by
    simp only [escapeForJson, List.nil_append]
    rw [parseStrBody.eq_def]
    simp
  | c :: t, acc, rest => by
    by_cases h1 : c = '\\'
    · subst h1
      have ih := parseStrBody_round t ('\\' :: acc) rest
      simp only [escapeForJson, if_pos rfl, List.cons_append, List.append_assoc,
        List.nil_append]
      simp [parseStrBody, jsonUnescape]
      simpa using ih
    · by_cases h2 : c = '"'
      · subst h2
        have ih := parseStrBody_round t ('"' :: acc) rest
        simp only [escapeForJson]
        simp only [if_neg (by decide : ¬('"' : Char) = '\\'), if_pos rfl,
          List.cons_append, List.append_assoc, List.nil_append]
        simp [parseStrBody, jsonUnescape]
        simpa using ih
      · by_cases h3 : c = '\n'
        · subst h3
          have ih := parseStrBody_round t ('\n' :: acc) rest
          simp only [escapeForJson]
          simp only [if_neg (by decide : ¬('\n' : Char) = '\\'),
            if_neg (by decide : ¬('\n' : Char) = '"'), if_pos rfl,
            List.cons_append, List.append_assoc, List.nil_append]
          simp [parseStrBody, jsonUnescape]
          simpa using ih
        · by_cases h4 : c = '\r'
          · subst h4
            have ih := parseStrBody_round t ('\r' :: acc) rest
            simp only [escapeForJson]
            simp only [if_neg (by decide : ¬('\r' : Char) = '\\'),
              if_neg (by decide : ¬('\r' : Char) = '"'),
              if_neg (by decide : ¬('\r' : Char) = '\n'), if_pos rfl,
              List.cons_append, List.append_assoc, List.nil_append]
            simp [parseStrBody, jsonUnescape]
            simpa using ih
          · by_cases h5 : c = '\t'
            · subst h5
              have ih := parseStrBody_round t ('\t' :: acc) rest
              simp only [escapeForJson]
              simp only [if_neg (by decide : ¬('\t' : Char) = '\\'),
                if_neg (by decide : ¬('\t' : Char) = '"'),
                if_neg (by decide : ¬('\t' : Char) = '\n'),
                if_neg (by decide : ¬('\t' : Char) = '\r'), if_pos rfl,
                List.cons_append, List.append_assoc, List.nil_append]
              simp [parseStrBody, jsonUnescape]
              simpa using ih
            · by_cases h6 : c = Char.ofNat 8
              · subst h6
                have ih := parseStrBody_round t (Char.ofNat 8 :: acc) rest
                simp only [escapeForJson]
                simp only [if_neg (by decide : ¬(Char.ofNat 8) = '\\'),
                  if_neg (by decide : ¬(Char.ofNat 8) = '"'),
                  if_neg (by decide : ¬(Char.ofNat 8) = '\n'),
                  if_neg (by decide : ¬(Char.ofNat 8) = '\r'),
                  if_neg (by decide : ¬(Char.ofNat 8) = '\t'), if_pos rfl,
                  List.cons_append, List.append_assoc, List.nil_append]
                simp [parseStrBody, jsonUnescape]
                simpa using ih
              · by_cases h7 : c = Char.ofNat 12
                · subst h7
                  have ih := parseStrBody_round t (Char.ofNat 12 :: acc) rest
                  simp only [escapeForJson]
                  simp only [if_neg (by decide : ¬(Char.ofNat 12) = '\\'),
                    if_neg (by decide : ¬(Char.ofNat 12) = '"'),
                    if_neg (by decide : ¬(Char.ofNat 12) = '\n'),
                    if_neg (by decide : ¬(Char.ofNat 12) = '\r'),
                    if_neg (by decide : ¬(Char.ofNat 12) = '\t'),
                    if_neg (by decide : ¬(Char.ofNat 12) = Char.ofNat 8), if_pos rfl,
                    List.cons_append, List.append_assoc, List.nil_append]
                  simp [parseStrBody, jsonUnescape]
                  simpa using ih
                · by_cases h8 : c.toNat < 32
                  · have ih := parseStrBody_round t (c :: acc) rest
                    simp only [escapeForJson, if_neg h1, if_neg h2, if_neg h3,
                      if_neg h4, if_neg h5, if_neg h6, if_neg h7, if_pos h8,
                      List.cons_append, List.append_assoc, List.nil_append]
                    by_cases h9 : c.toNat < 16
                    · simp only [if_pos h9, List.cons_append, List.nil_append]
                      rw [parseStrBody.eq_def]
                      simp only [if_neg (by decide : ¬('\\' : Char) = '"'), if_pos rfl]
                      rw [show hex4Char '0' '0' '0' (hexDigitChar c.toNat) = some c by
                        rw [hex4Char_00 c.toNat (by omega), Char.ofNat_toNat]]
                      simpa using ih
                    · simp only [if_neg h9, List.cons_append, List.nil_append]
                      rw [parseStrBody.eq_def]
                      simp only [if_neg (by decide : ¬('\\' : Char) = '"'), if_pos rfl]
                      rw [show hex4Char '0' '0' (hexDigitChar (c.toNat / 16))
                          (hexDigitChar (c.toNat % 16)) = some c by
                        rw [hex4Char_0hex c.toNat (by omega), Char.ofNat_toNat]]
                      simpa using ih
                  · have ih := parseStrBody_round t (c :: acc) rest
                    simp only [escapeForJson, if_neg h1, if_neg h2, if_neg h3,
                      if_neg h4, if_neg h5, if_neg h6, if_neg h7, if_neg h8,
                      List.cons_append, List.append_assoc, List.nil_append]
                    rw [parseStrBody.eq_def]
                    simp only [if_neg h2, if_neg h1, if_neg h8]
                    simpa using ih

/-! Section 13c: round trip, part 2: number literals. -/

theorem parseExpLit_run (e : Char) (ds rest : List Char) (he : e = 'e' ∨ e = 'E')
    (hne : ds ≠ []) (hds : ∀ d ∈ ds, isDigit09 d = true)
    (hr : ∀ c, rest.head? = some c → isDigit09 c = false) :
    parseExpLit (e :: (ds ++ rest)) = .ok (e :: ds, rest) := by
  have ht : (ds ++ rest).takeWhile isDigit09 = ds := by
    rw [takeWhile_append_all _ ds rest hds, takeWhile_eq_nil_head _ rest hr]
    simp
  have hd : (ds ++ rest).dropWhile isDigit09 = rest := by
    rw [dropWhile_append_all _ ds rest hds]
    exact dropWhile_eq_self_head _ rest hr
  cases ds with
  | nil => exact absurd rfl hne
  | cons d dt =>
    have hdd : isDigit09 d = true := hds d (by simp)
    simp only [parseExpLit, List.cons_append]
    rw [if_pos he]
    rw [if_neg (by rintro (rfl | rfl) <;> simp [isDigit09] at hdd)]
    simp only [← List.cons_append] at ht hd ⊢
    simp only [ht, hd]
    cases dt <;> simp

theorem parseExpLit_signRun (e : Char) (sc : Char) (ds rest : List Char) (he : e = 'e' ∨ e = 'E')
    (hsc : sc = '+' ∨ sc = '-')
    (hne : ds ≠ []) (hds : ∀ d ∈ ds, isDigit09 d = true)
    (hr : ∀ c, rest.head? = some c → isDigit09 c = false) :
    parseExpLit (e :: (sc :: ds ++ rest)) = .ok (e :: (sc :: ds), rest) := by
  have ht : (ds ++ rest).takeWhile isDigit09 = ds := by
    rw [takeWhile_append_all _ ds rest hds, takeWhile_eq_nil_head _ rest hr]
    simp
  have hd : (ds ++ rest).dropWhile isDigit09 = rest := by
    rw [dropWhile_append_all _ ds rest hds]
    exact dropWhile_eq_self_head _ rest hr
  simp only [parseExpLit, List.cons_append]
  rw [if_pos he, if_pos hsc]
  simp only [ht, hd]
  cases ds with
  | nil => exact absurd rfl hne
  | cons d dt => simp

theorem parseIntLit_ext (ip rest : List Char) (h : IntShape ip)
    (hr : ∀ c, rest.head? = some c → isDigit09 c = false) :
    parseIntLit (ip ++ rest) = .ok (ip, rest) := by
  rcases h with rfl | ⟨c, ds, rfl, hdig, hne0, hds⟩
  · simp only [List.cons_append, List.nil_append, parseIntLit]
    simp
  · simp only [List.cons_append, parseIntLit]
    rw [if_neg hne0, if_pos hdig]
    rw [takeWhile_append_all _ ds rest hds, dropWhile_append_all _ ds rest hds]
    rw [takeWhile_eq_nil_head _ rest hr, dropWhile_eq_self_head _ rest hr]
    simp



theorem parseFracLit_ext (fp rest : List Char) (h : FracShape fp)
    (hr : ∀ c, rest.head? = some c → isDigit09 c = false ∧ c ≠ '.') :
    parseFracLit (fp ++ rest) = .ok (fp, rest) := by
  rcases h with rfl | ⟨ds, rfl, hne, hds⟩
  · simp only [List.nil_append]
    cases rest with
    | nil => rfl
    | cons a r =>
      rw [parseFracLit.eq_def]
      split
      · rename_i heq
        exfalso
        injection heq with h1 h2
        exact (hr a rfl).2 h1
      · rfl
  · have hr' : ∀ c, rest.head? = some c → isDigit09 c = false := fun c hc => (hr c hc).1
    have ht : (ds ++ rest).takeWhile isDigit09 = ds := by
      rw [takeWhile_append_all _ ds rest hds, takeWhile_eq_nil_head _ rest hr']
      simp
    have hd : (ds ++ rest).dropWhile isDigit09 = rest := by
      rw [dropWhile_append_all _ ds rest hds]
      exact dropWhile_eq_self_head _ rest hr'
    rw [List.cons_append, parseFracLit.eq_def]
    split
    · rename_i l rest2 heq
      injection heq with h1 h2
      subst h2
      simp only [ht, hd]
    · rename_i l hno
      exact absurd rfl (hno (ds ++ rest))

theorem parseExpLit_ext (ep rest : List Char) (h : ExpShape ep)
    (hr : ∀ c, rest.head? = some c → isDigit09 c = false ∧ c ≠ 'e' ∧ c ≠ 'E') :
    parseExpLit (ep ++ rest) = .ok (ep, rest) := by
  have hr' : ∀ c, rest.head? = some c → isDigit09 c = false := fun c hc => (hr c hc).1
  rcases h with rfl | ⟨e, sg, ds, rfl, he, hsg, hne, hds⟩
  · simp only [List.nil_append]
    cases rest with
    | nil => rfl
    | cons a r =>
      have ha := hr a rfl
      simp only [parseExpLit]
      rw [if_neg (by rintro (rfl | rfl) <;> simp_all)]
  · rcases hsg with rfl | rfl | rfl
    · rw [show (e :: ([] ++ ds)) ++ rest = e :: (ds ++ rest) by simp]
      rw [show (e :: (([] : List Char) ++ ds)) = e :: ds by simp]
      exact parseExpLit_run e ds rest he hne hds hr'
    · rw [show (e :: (['+'] ++ ds)) ++ rest = e :: ('+' :: ds ++ rest) by simp]
      exact parseExpLit_signRun e '+' ds rest he (Or.inl rfl) hne hds hr'
    · rw [show (e :: (['-'] ++ ds)) ++ rest = e :: ('-' :: ds ++ rest) by simp]
      exact parseExpLit_signRun e '-' ds rest he (Or.inr rfl) hne hds hr'

theorem numSignMatch_cons (l : List Char) (c0 : Char) (t0 : List Char)
    (heq : l = c0 :: t0) (hc0 : c0 ≠ '-') :
    (match l with
     | '-' :: r => ((['-'] : List Char), r)
     | _ => (([] : List Char), l)) = ([], l) := by
  subst heq
  split
  · rename_i r hpat
    exfalso
    injection hpat with h1 h2
    exact hc0 h1
  · rfl

theorem numShape_parse (lit rest : List Char) (h : NumShape lit) (hrest : NumDelim rest) :
    parseNumLit (lit ++ rest) = .ok (lit, rest) := by
  obtain ⟨sgn, ip, fp, ep, rfl, hsgn, hip, hfp, hep⟩ := h
  have hrest4 : ∀ c, rest.head? = some c →
      isDigit09 c = false ∧ c ≠ '.' ∧ c ≠ 'e' ∧ c ≠ 'E' := by
    intro c hc
    rcases hrest with rfl | ⟨c0, r0, rfl, hd, hdot, hce, hcE⟩
    · simp at hc
    · simp at hc
      subst hc
      exact ⟨hd, hdot, hce, hcE⟩
  have hexp_rest : ∀ c, (ep ++ rest).head? = some c →
      isDigit09 c = false ∧ c ≠ '.' := by
    intro c hc
    rcases hep with rfl | ⟨e, sg, ds, rfl, he, hsg, hne, hds⟩
    · simp only [List.nil_append] at hc
      exact ⟨(hrest4 c hc).1, (hrest4 c hc).2.1⟩
    · simp at hc
      rcases he with rfl | rfl
      · rw [← hc]
        exact ⟨by simp [isDigit09], by decide⟩
      · rw [← hc]
        exact ⟨by simp [isDigit09], by decide⟩
  have hfrac_rest : ∀ c, (fp ++ (ep ++ rest)).head? = some c → isDigit09 c = false := by
    intro c hc
    rcases hfp with rfl | ⟨ds, rfl, hne, hds⟩
    · simp only [List.nil_append] at hc
      exact (hexp_rest c hc).1
    · simp at hc
      rw [← hc]
      simp [isDigit09]
  have hInt := parseIntLit_ext ip (fp ++ (ep ++ rest)) hip hfrac_rest
  have hFrac := parseFracLit_ext fp (ep ++ rest) hfp hexp_rest
  have hExp := parseExpLit_ext ep rest hep (fun c hc =>
    ⟨(hrest4 c hc).1, (hrest4 c hc).2.2.1, (hrest4 c hc).2.2.2⟩)
  have hheadip : ∃ c0 t0, ip ++ (fp ++ (ep ++ rest)) = c0 :: t0 ∧ c0 ≠ '-' := by
    rcases hip with rfl | ⟨c, ds, rfl, hdig, hne0, hds⟩
    · exact ⟨'0', fp ++ (ep ++ rest), by simp, by decide⟩
    · refine ⟨c, ds ++ (fp ++ (ep ++ rest)), by simp, ?_⟩
      rintro rfl
      simp [isDigit09] at hdig
  unfold parseNumLit
  rcases hsgn with rfl | rfl
  · simp only [List.nil_append, List.append_assoc]
    obtain ⟨c0, t0, heq, hc0⟩ := hheadip
    rw [numSignMatch_cons (ip ++ (fp ++ (ep ++ rest))) c0 t0 heq hc0]
    dsimp only
    rw [hInt]
    simp only [hFrac, hExp]
    simp
  · simp only [List.cons_append, List.nil_append, List.append_assoc]
    rw [hInt]
    simp only [hFrac, hExp]

theorem parseIntLit_shape (l ip r : List Char) (h : parseIntLit l = .ok (ip, r)) :
    IntShape ip ∧ l = ip ++ r := by
  cases l with
  | nil => simp [parseIntLit] at h
  | cons c rest =>
    simp only [parseIntLit] at h
    by_cases h0 : c = '0'
    · subst h0
      rw [if_pos rfl] at h
      injection h with h1
      injection h1 with h2 h3
      subst h2
      subst h3
      exact ⟨Or.inl rfl, by simp⟩
    · rw [if_neg h0] at h
      by_cases hd : isDigit09 c = true
      · rw [if_pos hd] at h
        injection h with h1
        injection h1 with h2 h3
        subst h2
        subst h3
        refine ⟨Or.inr ⟨c, rest.takeWhile isDigit09, rfl, hd, h0,
          fun d hdm => List.mem_takeWhile_imp hdm⟩, ?_⟩
        simp [List.takeWhile_append_dropWhile]
      · rw [if_neg hd] at h
        exact absurd h (by simp)

theorem parseFracLit_shape (l fp r : List Char) (h : parseFracLit l = .ok (fp, r)) :
    FracShape fp ∧ l = fp ++ r := by
  rw [parseFracLit.eq_def] at h
  split at h
  · rename_i l2 rest
    cases hts : rest.takeWhile isDigit09 with
    | nil => rw [hts] at h; simp at h
    | cons d dt =>
      rw [hts] at h
      injection h with h1
      injection h1 with h2 h3
      subst h2
      subst h3
      constructor
      · refine Or.inr ⟨d :: dt, rfl, by simp, ?_⟩
        intro x hx
        rw [← hts] at hx
        exact List.mem_takeWhile_imp hx
      · have hl := (List.takeWhile_append_dropWhile (p := isDigit09) (l := rest)).symm
        rw [hts] at hl
        conv_lhs => rw [hl]
        simp
  · rename_i hno
    injection h with h1
    injection h1 with h2 h3
    subst h2
    subst h3
    exact ⟨Or.inl rfl, by simp⟩

theorem parseExpLit_shape (l ep r : List Char) (h : parseExpLit l = .ok (ep, r)) :
    ExpShape ep ∧ l = ep ++ r := by
  cases l with
  | nil =>
    simp only [parseExpLit] at h
    injection h with h1
    injection h1 with h2 h3
    subst h2
    subst h3
    exact ⟨Or.inl rfl, rfl⟩
  | cons c rest =>
    simp only [parseExpLit] at h
    by_cases hce : c = 'e' ∨ c = 'E'
    · rw [if_pos hce] at h
      cases rest with
      | nil => simp at h
      | cons s r2 =>
        dsimp only at h
        by_cases hs : s = '+' ∨ s = '-'
        · rw [if_pos hs] at h
          cases hts : r2.takeWhile isDigit09 with
          | nil => rw [hts] at h; simp at h
          | cons d dt =>
            rw [hts] at h
            injection h with h1
            injection h1 with h2 h3
            subst h2
            subst h3
            constructor
            · refine Or.inr ⟨c, [s], d :: dt, by simp, hce, ?_, by simp, ?_⟩
              · rcases hs with rfl | rfl
                · exact Or.inr (Or.inl rfl)
                · exact Or.inr (Or.inr rfl)
              · intro x hx
                rw [← hts] at hx
                exact List.mem_takeWhile_imp hx
            · have hl := (List.takeWhile_append_dropWhile (p := isDigit09) (l := r2)).symm
              rw [hts] at hl
              conv_lhs => rw [hl]
              simp
        · rw [if_neg hs] at h
          cases hts : (s :: r2).takeWhile isDigit09 with
          | nil => rw [hts] at h; simp at h
          | cons d dt =>
            rw [hts] at h
            injection h with h1
            injection h1 with h2 h3
            subst h2
            subst h3
            constructor
            · refine Or.inr ⟨c, [], d :: dt, by simp, hce, Or.inl rfl, by simp, ?_⟩
              intro x hx
              rw [← hts] at hx
              exact List.mem_takeWhile_imp hx
            · have hl := (List.takeWhile_append_dropWhile (p := isDigit09) (l := s :: r2)).symm
              rw [hts] at hl
              conv_lhs => rw [hl]
              simp
    · rw [if_neg hce] at h
      injection h with h1
      injection h1 with h2 h3
      subst h2
      subst h3
      exact ⟨Or.inl rfl, by simp⟩

theorem parseNumLit_shape (l lit r : List Char) (h : parseNumLit l = .ok (lit, r)) :
    NumShape lit := by
  unfold parseNumLit at h
  generalize hs0 : (match l with
    | '-' :: rr => ((['-'] : List Char), rr)
    | _ => (([] : List Char), l)) = p0 at h
  obtain ⟨sgn, r0⟩ := p0
  dsimp only at h
  cases hInt : parseIntLit r0 with
  | error e => rw [hInt] at h; simp at h
  | ok pInt =>
    obtain ⟨ip, r1⟩ := pInt
    rw [hInt] at h
    dsimp only at h
    cases hFrac : parseFracLit r1 with
    | error e => rw [hFrac] at h; simp at h
    | ok pF =>
      obtain ⟨fp, r2⟩ := pF
      rw [hFrac] at h
      dsimp only at h
      cases hExp : parseExpLit r2 with
      | error e => rw [hExp] at h; simp at h
      | ok pE =>
        obtain ⟨ep, r3⟩ := pE
        rw [hExp] at h
        dsimp only at h
        simp only [Except.ok.injEq, Prod.mk.injEq] at h
        obtain ⟨hlit, hr⟩ := h
        have hsgn : sgn = [] ∨ sgn = ['-'] := by
          split at hs0
          · injection hs0 with hA hB
            exact Or.inr hA.symm
          · injection hs0 with hA hB
            exact Or.inl hA.symm
        subst hlit
        exact ⟨sgn, ip, fp, ep, rfl, hsgn,
          (parseIntLit_shape _ _ _ hInt).1, (parseFracLit_shape _ _ _ hFrac).1,
          (parseExpLit_shape _ _ _ hExp).1⟩

theorem numShape_head (lit : List Char) (h : NumShape lit) :
    ∃ c t, lit = c :: t ∧ (c = '-' ∨ isDigit09 c = true) := by
  obtain ⟨sgn, ip, fp, ep, rfl, hsgn, hip, hfp, hep⟩ := h
  rcases hsgn with rfl | rfl
  · rcases hip with rfl | ⟨c, ds, rfl, hdig, hne0, hds⟩
    · exact ⟨'0', fp ++ ep, by simp, Or.inr (by decide)⟩
    · exact ⟨c, ds ++ fp ++ ep, by simp, Or.inr hdig⟩
  · exact ⟨'-', ip ++ fp ++ ep, by simp, Or.inl rfl⟩

theorem numShape_last (lit : List Char) (h : NumShape lit) :
    ∃ t c, lit = t ++ [c] ∧ isDigit09 c = true := by
  obtain ⟨sgn, ip, fp, ep, rfl, hsgn, hip, hfp, hep⟩ := h
  rcases hep with rfl | ⟨e, sg, ds, rfl, he, hsg, hne, hds⟩
  · rcases hfp with rfl | ⟨ds, rfl, hne, hds⟩
    · rcases hip with rfl | ⟨c, ds, rfl, hdig, hne0, hds⟩
      · exact ⟨sgn, '0', by simp, by decide⟩
      · rcases List.eq_nil_or_concat ds with rfl | ⟨ds2, dl, rfl⟩
        · exact ⟨sgn, c, by simp, hdig⟩
        · exact ⟨sgn ++ (c :: ds2), dl, by simp, hds dl (by simp)⟩
    · rcases List.eq_nil_or_concat ds with rfl | ⟨ds2, dl, rfl⟩
      · exact absurd rfl hne
      · exact ⟨sgn ++ ip ++ ('.' :: ds2), dl, by simp, hds dl (by simp)⟩
  · rcases List.eq_nil_or_concat ds with rfl | ⟨ds2, dl, rfl⟩
    · exact absurd rfl hne
    · exact ⟨sgn ++ ip ++ fp ++ (e :: (sg ++ ds2)), dl, by simp, hds dl (by simp)⟩

/-! Section 13d: the parser ignores leading whitespace. -/

theorem parseVal_wsPre (fuel : Nat) (w l : List Char) (hw : ∀ c ∈ w, isWsChar c = true) :
    parseVal fuel (w ++ l) = parseVal fuel l := by
  cases fuel with
  | zero => rfl
  | succ f =>
    simp only [parseVal]
    rw [dropWhile_append_all _ w l hw]

theorem parseVal_dropWs (fuel : Nat) (l : List Char) :
    parseVal fuel (l.dropWhile isWsChar) = parseVal fuel l := by
  conv_rhs => rw [← List.takeWhile_append_dropWhile (p := isWsChar) (l := l)]
  exact (parseVal_wsPre fuel _ _ (fun c hc => List.mem_takeWhile_imp hc)).symm

theorem parseElemsJ_wsPre (fuel : Nat) (w l : List Char)
    (hw : ∀ c ∈ w, isWsChar c = true) :
    parseElemsJ fuel (w ++ l) = parseElemsJ fuel l := by
  cases fuel with
  | zero => rfl
  | succ f =>
    simp only [parseElemsJ]
    rw [parseVal_wsPre f w l hw]

theorem parseElemsJ_dropWs (fuel : Nat) (l : List Char) :
    parseElemsJ fuel (l.dropWhile isWsChar) = parseElemsJ fuel l := by
  conv_rhs => rw [← List.takeWhile_append_dropWhile (p := isWsChar) (l := l)]
  exact (parseElemsJ_wsPre fuel _ _ (fun c hc => List.mem_takeWhile_imp hc)).symm

theorem parseMembersJ_wsPre (fuel : Nat) (w l : List Char)
    (hw : ∀ c ∈ w, isWsChar c = true) :
    parseMembersJ fuel (w ++ l) = parseMembersJ fuel l := by
  cases fuel with
  | zero => rfl
  | succ f =>
    simp only [parseMembersJ]
    rw [dropWhile_append_all _ w l hw]

theorem parseMembersJ_dropWs (fuel : Nat) (l : List Char) :
    parseMembersJ fuel (l.dropWhile isWsChar) = parseMembersJ fuel l := by
  conv_rhs => rw [← List.takeWhile_append_dropWhile (p := isWsChar) (l := l)]
  exact (parseMembersJ_wsPre fuel _ _ (fun c hc => List.mem_takeWhile_imp hc)).symm

/-! Section 13e: first and last characters of a rendering. -/

theorem renderV_head (v : JValue) (d : Nat) (hw : WfV v) :
    ∃ c t, renderV v d = c :: t ∧ isWsChar c = false ∧ c ≠ ']' ∧ c ≠ '}' := by
  cases v with
  | null => exact ⟨'n', ( "ull").data, rfl, by decide, by decide, by decide⟩
  | bool b =>
    cases b with
    | true => exact ⟨'t', ( "rue").data, rfl, by decide, by decide, by decide⟩
    | false => exact ⟨'f', ( "alse").data, rfl, by decide, by decide, by decide⟩
  | num lit =>
    have hs : NumShape lit := hw
    obtain ⟨c, t, heq, hc⟩ := numShape_head lit hs
    refine ⟨c, t, by simp [renderV, heq], ?_, ?_, ?_⟩
    · rcases hc with rfl | hd
      · decide
      · exact digit_not_ws c hd
    · rcases hc with rfl | hd
      · decide
      · rintro rfl
        simp [isDigit09] at hd
    · rcases hc with rfl | hd
      · decide
      · rintro rfl
        simp [isDigit09] at hd
  | str s =>
    exact ⟨'"', escapeForJson s ++ ['"'], rfl, by decide, by decide, by decide⟩
  | arr items =>
    cases items with
    | nil => exact ⟨'[', [']'], rfl, by decide, by decide, by decide⟩
    | cons x xs =>
      exact ⟨'[', '\n' :: (renderItems (x :: xs) (d + 2) ++ '\n' :: (nSpaces d ++ [']'])),
        rfl, by decide, by decide, by decide⟩
  | obj fields =>
    cases fields with
    | nil => exact ⟨'{', ['}'], rfl, by decide, by decide, by decide⟩
    | cons f fs =>
      exact ⟨'{', '\n' :: (renderFields (f :: fs) (d + 2) ++ '\n' :: (nSpaces d ++ ['}'])),
        rfl, by decide, by decide, by decide⟩

theorem renderV_last (v : JValue) (d : Nat) (hw : WfV v) :
    ∃ t c, renderV v d = t ++ [c] ∧ isWsChar c = false := by
  cases v with
  | null => exact ⟨( "nul").data, 'l', rfl, by decide⟩
  | bool b =>
    cases b with
    | true => exact ⟨( "tru").data, 'e', rfl, by decide⟩
    | false => exact ⟨( "fals").data, 'e', rfl, by decide⟩
  | num lit =>
    have hs : NumShape lit := hw
    obtain ⟨t, c, heq, hc⟩ := numShape_last lit hs
    exact ⟨t, c, by simp [renderV, heq], digit_not_ws c hc⟩
  | str s =>
    exact ⟨'"' :: escapeForJson s, '"', by simp [renderV, quoteStr], by decide⟩
  | arr items =>
    cases items with
    | nil => exact ⟨['['], ']', rfl, by decide⟩
    | cons x xs =>
      refine ⟨'[' :: '\n' :: (renderItems (x :: xs) (d + 2) ++ '\n' :: nSpaces d), ']',
        ?_, by decide⟩
      simp [renderV]
  | obj fields =>
    cases fields with
    | nil => exact ⟨['{'], '}', rfl, by decide⟩
    | cons f fs =>
      refine ⟨'{' :: '\n' :: (renderFields (f :: fs) (d + 2) ++ '\n' :: nSpaces d), '}',
        ?_, by decide⟩
      simp [renderV]

theorem trimWs_renderV (v : JValue) (hw : WfV v) :
    trimWs (renderV v 0) = renderV v 0 := by
  obtain ⟨c, t, hh, hcws, _, _⟩ := renderV_head v 0 hw
  obtain ⟨t2, c2, hl, hc2ws⟩ := renderV_last v 0 hw
  unfold trimWs
  rw [hh, trimLeftWs_cons_false c t hcws, ← hh, hl, trimRightWs_append_last t2 c2 hc2ws]

/-! Section 13f: objects built by the parser: key uniqueness and value
well-formedness under objInsert and buildObj. -/

theorem wfItems_iff (xs : List JValue) : WfItems xs ↔ ∀ x ∈ xs, WfV x := by
  induction xs with
  | nil => simp [WfItems]
  | cons x xs ih => simp [WfItems, ih]

theorem wfFields_iff (fs : List (List Char × JValue)) :
    WfFields fs ↔ ∀ kv ∈ fs, WfV kv.2 := by
  induction fs with
  | nil => simp [WfFields]
  | cons kv fs ih => simp [WfFields, ih]

theorem objInsert_keys (fs : List (List Char × JValue)) (k : List Char) (v : JValue)
    (hmem : fs.any (fun kv => kv.1 == k) = true) :
    (objInsert fs k v).map Prod.fst = fs.map Prod.fst := by
  unfold objInsert
  rw [if_pos hmem, List.map_map]
  apply List.map_congr_left
  intro kv _
  by_cases hk : kv.1 = k
  · simp [Function.comp, hk]
  · simp [Function.comp, hk]

theorem objInsert_fresh (fs : List (List Char × JValue)) (k : List Char) (v : JValue)
    (hmem : ¬ fs.any (fun kv => kv.1 == k) = true) :
    objInsert fs k v = fs ++ [(k, v)] := by
  unfold objInsert
  rw [if_neg hmem]

theorem objInsert_nodup (fs : List (List Char × JValue)) (k : List Char) (v : JValue)
    (h : (fs.map Prod.fst).Nodup) : ((objInsert fs k v).map Prod.fst).Nodup := by
  by_cases hmem : fs.any (fun kv => kv.1 == k) = true
  · rw [objInsert_keys fs k v hmem]
    exact h
  · rw [objInsert_fresh fs k v hmem, List.map_append]
    have hnot : k ∉ fs.map Prod.fst := by
      intro hk
      obtain ⟨kv, hkv, hfst⟩ := List.mem_map.mp hk
      apply hmem
      rw [List.any_eq_true]
      exact ⟨kv, hkv, by simp [hfst]⟩
    simp [List.nodup_append, h, hnot]

theorem buildObj_nodup_aux : ∀ (ms acc : List (List Char × JValue)),
    (acc.map Prod.fst).Nodup →
    (((ms.foldl (fun a kv => objInsert a kv.1 kv.2) acc).map Prod.fst).Nodup)
  | [], acc, h => by simpa
  | kv :: ms, acc, h => by
    simp only [List.foldl_cons]
    exact buildObj_nodup_aux ms _ (objInsert_nodup acc kv.1 kv.2 h)

theorem buildObj_nodup (ms : List (List Char × JValue)) :
    ((buildObj ms).map Prod.fst).Nodup :=
  buildObj_nodup_aux ms [] (by simp)

theorem objInsert_wf (fs : List (List Char × JValue)) (k : List Char) (v : JValue)
    (hf : WfFields fs) (hv : WfV v) : WfFields (objInsert fs k v) := by
  rw [wfFields_iff] at hf ⊢
  intro kv hkv
  unfold objInsert at hkv
  split at hkv
  · obtain ⟨kv0, hkv0, rfl⟩ := List.mem_map.mp hkv
    by_cases hk : kv0.1 = k
    · rw [if_pos hk]
      exact hv
    · rw [if_neg hk]
      exact hf kv0 hkv0
  · rcases List.mem_append.mp hkv with hin | hin
    · exact hf kv hin
    · simp at hin
      subst hin
      exact hv

theorem buildObj_wf_aux : ∀ (ms acc : List (List Char × JValue)),
    WfFields acc → (∀ kv ∈ ms, WfV kv.2) →
    WfFields (ms.foldl (fun a kv => objInsert a kv.1 kv.2) acc)
  | [], acc, ha, _ => by simpa
  | kv :: ms, acc, ha, hm => by
    simp only [List.foldl_cons]
    exact buildObj_wf_aux ms _ (objInsert_wf acc kv.1 kv.2 ha (hm kv (by simp)))
      (fun kv2 h2 => hm kv2 (by simp [h2]))

theorem buildObj_wf (ms : List (List Char × JValue)) (h : WfFields ms) :
    WfFields (buildObj ms) :=
  buildObj_wf_aux ms [] (by simp [WfFields]) (fun kv hkv => (wfFields_iff ms).mp h kv hkv)

theorem buildObj_self_aux : ∀ (ms acc : List (List Char × JValue)),
    (acc.map Prod.fst ++ ms.map Prod.fst).Nodup →
    ms.foldl (fun a kv => objInsert a kv.1 kv.2) acc = acc ++ ms
  | [], acc, _ => by simp
  | (k, v) :: ms, acc, h => by
    simp only [List.foldl_cons]
    simp only [List.map_cons] at h
    have hknotacc : k ∉ acc.map Prod.fst := by
      have hdisj := (List.nodup_append.mp h).2.2
      intro hk
      exact hdisj hk (by simp)
    have hmem : ¬ acc.any (fun kv => kv.1 == k) = true := by
      intro hany
      rw [List.any_eq_true] at hany
      obtain ⟨kv, hkv, hbeq⟩ := hany
      apply hknotacc
      rw [List.mem_map]
      exact ⟨kv, hkv, by simpa using hbeq⟩
    rw [objInsert_fresh acc k v hmem]
    have hrec := buildObj_self_aux ms (acc ++ [(k, v)]) (by
      simp only [List.map_append, List.map_cons, List.map_nil]
      simpa [List.append_assoc] using h)
    rw [hrec]
    simp

theorem buildObj_self (fs : List (List Char × JValue))
    (h : (fs.map Prod.fst).Nodup) : buildObj fs = fs := by
  have := buildObj_self_aux fs [] (by simpa)
  simpa [buildObj] using this

/-! Section 13g: every value the parser returns is well-formed. -/

theorem parse_wf_all (fuel : Nat) :
    (∀ cs v r, parseVal fuel cs = .ok (v, r) → WfV v) ∧
    (∀ cs vs r, parseElemsJ fuel cs = .ok (vs, r) → WfItems vs) ∧
    (∀ cs ms r, parseMembersJ fuel cs = .ok (ms, r) → WfFields ms) := by
  induction fuel with
  | zero =>
    refine ⟨?_, ?_, ?_⟩ <;> intro cs a r h <;>
      simp [parseVal, parseElemsJ, parseMembersJ] at h
  | succ f ih =>
    obtain ⟨ihV, ihE, ihM⟩ := ih
    refine ⟨?_, ?_, ?_⟩
    · intro cs v r h
      simp only [parseVal] at h
      split at h
      · injection h with h1
        injection h1 with hv hr
        subst hv
        exact trivial
      · injection h with h1
        injection h1 with hv hr
        subst hv
        exact trivial
      · injection h with h1
        injection h1 with hv hr
        subst hv
        exact trivial
      · split at h
        · split at h
          · rename_i x1 s r2 hstr
            injection h with h1
            injection h1 with hv hr
            subst hv
            exact trivial
          · simp at h
        · split at h
          · split at h
            · injection h with h1
              injection h1 with hv hr
              subst hv
              exact ⟨by simp, trivial⟩
            · split at h
              · rename_i x2 ms2 r4 hmem
                injection h with h1
                injection h1 with hv hr
                subst hv
                exact ⟨buildObj_nodup ms2, buildObj_wf ms2 (ihM _ ms2 r4 hmem)⟩
              · simp at h
          · split at h
            · split at h
              · injection h with h1
                injection h1 with hv hr
                subst hv
                exact trivial
              · split at h
                · rename_i x2 es2 r4 helem
                  injection h with h1
                  injection h1 with hv hr
                  subst hv
                  exact ihE _ es2 r4 helem
                · simp at h
            · split at h
              · split at h
                · rename_i x2 lit r2 hnum
                  injection h with h1
                  injection h1 with hv hr
                  subst hv
                  exact parseNumLit_shape _ _ _ hnum
                · simp at h
              · simp at h
      · simp at h
    · intro cs vs r h
      simp only [parseElemsJ] at h
      split at h
      · simp at h
      · rename_i x0 v0 r1 heq
        have hwv : WfV v0 := ihV _ v0 r1 heq
        split at h
        · split at h
          · rename_i x2 vs2 r3 helem
            injection h with h1
            injection h1 with hv hr
            subst hv
            exact ⟨hwv, ihE _ vs2 r3 helem⟩
          · simp at h
        · injection h with h1
          injection h1 with hv hr
          subst hv
          exact ⟨hwv, trivial⟩
        · simp at h
    · intro cs ms r h
      simp only [parseMembersJ] at h
      split at h
      · split at h
        · split at h
          · simp at h
          · rename_i x1 k r1 hkey
            split at h
            · split at h
              · simp at h
              · rename_i x2 v0 r3 hval
                have hwv : WfV v0 := ihV _ v0 r3 hval
                split at h
                · split at h
                  · rename_i x3 ms2 r5 hmem
                    injection h with h1
                    injection h1 with hv hr
                    subst hv
                    exact ⟨hwv, ihM _ ms2 r5 hmem⟩
                  · simp at h
                · injection h with h1
                  injection h1 with hv hr
                  subst hv
                  exact ⟨hwv, trivial⟩
                · simp at h
            · simp at h
        · simp at h
      · simp at h

theorem parseVal_wf (fuel : Nat) (cs : List Char) (v : JValue) (r : List Char)
    (h : parseVal fuel cs = .ok (v, r)) : WfV v :=
  (parse_wf_all fuel).1 cs v r h

theorem jsonParse_wf (l : List Char) (v : JValue) (h : jsonParse l = .ok v) : WfV v := by
  unfold jsonParse at h
  split at h
  · simp at h
  · rename_i x0 v0 r0 hp
    split at h
    · injection h with hv
      subst hv
      exact parseVal_wf _ _ _ _ hp
    · simp at h

/-! Section 13h: the reviver preserves well-formedness. -/

theorem tryParseJsonOrPython_wf (l : List Char) (p : JValue)
    (h : JsonFixer.tryParseJsonOrPython l = some p) : WfV p := by
  unfold JsonFixer.tryParseJsonOrPython at h
  split at h
  · rename_i v hv
    injection h with hp
    subst hp
    exact jsonParse_wf _ _ hv
  · split at h
    · rename_i v hv
      injection h with hp
      subst hp
      exact jsonParse_wf _ _ hv
    · simp at h

theorem wfItems_map (f : JValue → JValue) (hf : ∀ v, WfV v → WfV (f v)) :
    ∀ xs, WfItems xs → WfItems (xs.map f)
  | [], _ => trivial
  | x :: xs, h => ⟨hf x h.1, wfItems_map f hf xs h.2⟩

theorem wfFields_map (f : JValue → JValue) (hf : ∀ v, WfV v → WfV (f v)) :
    ∀ fs, WfFields fs → WfFields (fs.map (fun kv => (kv.1, f kv.2)))
  | [], _ => trivial
  | kv :: fs, h => ⟨hf kv.2 h.1, wfFields_map f hf fs h.2⟩

theorem rpsGas_wf : ∀ (g : Nat) (v : JValue), WfV v → WfV (JsonFixer.rpsGas g v)
  | 0, _, h => h
  | g + 1, v, h => by
    cases v with
    | null => exact h
    | bool b => exact h
    | num lit => exact h
    | str s =>
      simp only [JsonFixer.rpsGas]
      split
      · split
        · rename_i p hp
          exact rpsGas_wf g p (tryParseJsonOrPython_wf _ p hp)
        · split
          · split
            · rename_i pre span hsplit p hp
              exact ⟨by simp only [List.map_cons, List.map_nil]; decide, trivial,
                rpsGas_wf g p (tryParseJsonOrPython_wf _ p hp), trivial⟩
            · exact trivial
          · exact trivial
      · split
        · split
          · rename_i pre span hsplit p hp
            exact ⟨by simp only [List.map_cons, List.map_nil]; decide, trivial,
              rpsGas_wf g p (tryParseJsonOrPython_wf _ p hp), trivial⟩
          · exact trivial
        · exact trivial
    | arr items =>
      simp only [JsonFixer.rpsGas]
      exact wfItems_map (JsonFixer.rpsGas g) (fun v hv => rpsGas_wf g v hv) items h
    | obj fields =>
      simp only [JsonFixer.rpsGas]
      refine ⟨?_, ?_⟩
      · have hk : ((fields.map (fun kv => (kv.1, JsonFixer.rpsGas g kv.2))).map Prod.fst)
            = fields.map Prod.fst := by
          simp [List.map_map, Function.comp]
        rw [hk]
        exact h.1
      · exact wfFields_map (JsonFixer.rpsGas g) (fun v hv => rpsGas_wf g v hv) fields h.2

theorem recursivelyParseStrings_wf (v : JValue) (d : Nat) (h : WfV v) :
    WfV (JsonFixer.recursivelyParseStrings v d) :=
  rpsGas_wf _ v h


/-! Section 13i: the render/parse round trip. -/

theorem rdelim_numDelim (rest : List Char) (h : RDelim rest) : NumDelim rest := by
  rcases h with rfl | ⟨r, rfl⟩ | ⟨r, rfl⟩
  · exact Or.inl rfl
  · exact Or.inr ⟨',', r, rfl, by decide, by decide, by decide, by decide⟩
  · exact Or.inr ⟨'\n', r, rfl, by decide, by decide, by decide, by decide⟩


theorem nSpaces_ws (n : Nat) : ∀ c ∈ nSpaces n, isWsChar c = true := by
  intro c hc
  rw [nSpaces, List.mem_replicate] at hc
  rw [hc.2]
  decide

theorem parseVal_arrStep (f : Nat) (r : List Char) :
    parseVal (f + 1) ('[' :: r) =
      (match r.dropWhile isWsChar with
       | ']' :: r2 => Except.ok (JValue.arr [], r2)
       | r3 =>
         match parseElemsJ f r3 with
         | .ok (es, r4) => Except.ok (JValue.arr es, r4)
         | .error e => Except.error e) := by
  simp [parseVal, isWsChar]

theorem parseVal_objStep (f : Nat) (r : List Char) :
    parseVal (f + 1) ('{' :: r) =
      (match r.dropWhile isWsChar with
       | '}' :: r2 => Except.ok (JValue.obj [], r2)
       | r3 =>
         match parseMembersJ f r3 with
         | .ok (ms, r4) => Except.ok (JValue.obj (buildObj ms), r4)
         | .error e => Except.error e) := by
  simp [parseVal, isWsChar]

theorem rt_all (fuel : Nat) :
    (∀ v d rest, WfV v → RDelim rest → (renderV v d).length < fuel →
      parseVal fuel (renderV v d ++ rest) = .ok (v, rest)) ∧
    (∀ xs d tail rest, xs ≠ [] → WfItems xs → RDelim rest →
      (∀ c ∈ tail, isWsChar c = true) → (renderItems xs d).length + 1 < fuel →
      parseElemsJ fuel (renderItems xs d ++ '\n' :: (tail ++ ']' :: rest)) =
        .ok (xs, rest)) ∧
    (∀ fs d tail rest, fs ≠ [] → WfFields fs → RDelim rest →
      (∀ c ∈ tail, isWsChar c = true) → (renderFields fs d).length + 1 < fuel →
      parseMembersJ fuel (renderFields fs d ++ '\n' :: (tail ++ '}' :: rest)) =
        .ok (fs, rest)) := by
  induction fuel with
  | zero =>
    refine ⟨?_, ?_, ?_⟩
    · intro v d rest _ _ hlen
      omega
    · intro xs d tail rest _ _ _ _ hlen
      omega
    · intro fs d tail rest _ _ _ _ hlen
      omega
  | succ f ih =>
    obtain ⟨ihV, ihE, ihM⟩ := ih
    refine ⟨?_, ?_, ?_⟩
    · intro v d rest hw hr hlen
      cases v with
      | null =>
        show parseVal (f + 1) ('n' :: 'u' :: 'l' :: 'l' :: rest) = .ok (.null, rest)
        simp [parseVal, isWsChar]
      | bool b =>
        cases b with
        | true =>
          show parseVal (f + 1) ('t' :: 'r' :: 'u' :: 'e' :: rest) = .ok (.bool true, rest)
          simp [parseVal, isWsChar]
        | false =>
          show parseVal (f + 1) ('f' :: 'a' :: 'l' :: 's' :: 'e' :: rest) =
            .ok (.bool false, rest)
          simp [parseVal, isWsChar]
      | str s =>
        show parseVal (f + 1) ('"' :: (escapeForJson s ++ ['"']) ++ rest) = .ok (.str s, rest)
        simp only [parseVal, List.cons_append, List.append_assoc, List.nil_append]
        rw [List.dropWhile_cons_of_neg (by decide)]
        simp [parseStrBody_round s [] rest]
      | num lit =>
        have hws : NumShape lit := hw
        obtain ⟨c0, t0, heq, hc0⟩ := numShape_head lit hws
        have hnws : isWsChar c0 = false := by
          rcases hc0 with rfl | hd
          · decide
          · exact digit_not_ws c0 hd
        have hnot : c0 ≠ 'n' ∧ c0 ≠ 't' ∧ c0 ≠ 'f' ∧ c0 ≠ '"' ∧ c0 ≠ '{' ∧ c0 ≠ '[' := by
          rcases hc0 with rfl | hd
          · exact ⟨by decide, by decide, by decide, by decide, by decide, by decide⟩
          · refine ⟨?_, ?_, ?_, ?_, ?_, ?_⟩ <;> (rintro rfl; simp [isDigit09] at hd)
        have hnum : parseNumLit (lit ++ rest) = .ok (lit, rest) :=
          numShape_parse lit rest hws (rdelim_numDelim rest hr)
        show parseVal (f + 1) (lit ++ rest) = .ok (.num lit, rest)
        simp only [parseVal]
        rw [heq, List.cons_append, List.dropWhile_cons_of_neg (by simp [hnws])]
        split
        · rename_i r hpat
          injection hpat with h1 h2
          exact absurd h1 hnot.1
        · rename_i r hpat
          injection hpat with h1 h2
          exact absurd h1 hnot.2.1
        · rename_i r hpat
          injection hpat with h1 h2
          exact absurd h1 hnot.2.2.1
        · rename_i x1 c1 r1 hn ht hf2 heq2
          injection heq2 with hA hB
          subst hA
          subst hB
          rw [if_neg hnot.2.2.2.1, if_neg hnot.2.2.2.2.1, if_neg hnot.2.2.2.2.2,
            if_pos hc0]
          rw [show c0 :: (t0 ++ rest) = lit ++ rest by rw [heq]; simp]
          rw [hnum]
          simp [heq]
        · rename_i hpat
          simp at hpat
      | arr items =>
        cases items with
        | nil =>
          show parseVal (f + 1) ('[' :: ']' :: rest) = .ok (.arr [], rest)
          simp [parseVal, isWsChar]
        | cons x xs =>
          obtain ⟨cx, tx, hx, hxws, hxbr, hxbr2⟩ := renderV_head x (d + 2) hw.1
          have hlen2 : (renderItems (x :: xs) (d + 2)).length + 1 < f := by
            simp only [renderV, List.length_cons, List.length_append, nSpaces,
              List.length_replicate] at hlen
            omega
          have hE := ihE (x :: xs) (d + 2) (nSpaces d) rest (by simp) hw hr
            (nSpaces_ws d) hlen2
          obtain ⟨z, hsh⟩ : ∃ z, renderItems (x :: xs) (d + 2) =
              nSpaces (d + 2) ++ (renderV x (d + 2) ++ z) := by
            cases xs with
            | nil => exact ⟨[], by simp [renderItems]⟩
            | cons y ys =>
              exact ⟨',' :: '\n' :: renderItems (y :: ys) (d + 2),
                by simp [renderItems]⟩
          rw [show renderV (.arr (x :: xs)) d ++ rest =
            '[' :: ('\n' :: (renderItems (x :: xs) (d + 2) ++
              ('\n' :: (nSpaces d ++ (']' :: rest))))) by simp [renderV]]
          rw [parseVal_arrStep f _]
          rw [hsh] at hE ⊢
          simp only [List.append_assoc] at hE ⊢
          rw [parseElemsJ_wsPre f (nSpaces (d + 2)) _ (nSpaces_ws _)] at hE
          have hdw : ('\n' :: (nSpaces (d + 2) ++ (renderV x (d + 2) ++
              (z ++ ('\n' :: (nSpaces d ++ ']' :: rest)))))).dropWhile isWsChar =
              cx :: (tx ++ (z ++ ('\n' :: (nSpaces d ++ ']' :: rest)))) := by
            rw [List.dropWhile_cons_of_pos (by decide),
              dropWhile_append_all _ (nSpaces (d + 2)) _ (nSpaces_ws _), hx,
              List.cons_append]
            exact List.dropWhile_cons_of_neg (by simp [hxws])
          rw [hdw]
          split
          · rename_i r2 hpat
            injection hpat with h1 h2
            exact absurd h1 hxbr
          · rename_i x2 hno
            rw [show cx :: (tx ++ (z ++ ('\n' :: (nSpaces d ++ ']' :: rest)))) =
              renderV x (d + 2) ++ (z ++ ('\n' :: (nSpaces d ++ ']' :: rest))) by
                rw [hx]; simp]
            rw [hE]
      | obj fields =>
        cases fields with
        | nil =>
          show parseVal (f + 1) ('{' :: '}' :: rest) = .ok (.obj [], rest)
          simp [parseVal, isWsChar]
        | cons kv fs =>
          obtain ⟨k, v⟩ := kv
          have hlen2 : (renderFields ((k, v) :: fs) (d + 2)).length + 1 < f := by
            simp only [renderV, List.length_cons, List.length_append, nSpaces,
              List.length_replicate] at hlen
            omega
          have hM := ihM ((k, v) :: fs) (d + 2) (nSpaces d) rest (by simp) hw.2 hr
            (nSpaces_ws d) hlen2
          obtain ⟨z, hsh⟩ : ∃ z, renderFields ((k, v) :: fs) (d + 2) =
              nSpaces (d + 2) ++ ('"' :: z) := by
            cases fs with
            | nil =>
              exact ⟨escapeForJson k ++ '"' :: (':' :: ' ' :: renderV v (d + 2)),
                by simp [renderFields, quoteStr]⟩
            | cons kv2 fs2 =>
              exact ⟨escapeForJson k ++ '"' :: (':' :: ' ' :: renderV v (d + 2)) ++
                ',' :: '\n' :: renderFields (kv2 :: fs2) (d + 2),
                by simp [renderFields, quoteStr]⟩
          rw [show renderV (.obj ((k, v) :: fs)) d ++ rest =
            '{' :: ('\n' :: (renderFields ((k, v) :: fs) (d + 2) ++
              ('\n' :: (nSpaces d ++ ('}' :: rest))))) by simp [renderV]]
          rw [parseVal_objStep f _]
          rw [hsh] at hM ⊢
          simp only [List.cons_append, List.append_assoc] at hM ⊢
          rw [parseMembersJ_wsPre f (nSpaces (d + 2)) _ (nSpaces_ws _)] at hM
          have hdw : ('\n' :: (nSpaces (d + 2) ++ ('"' :: (z ++
              ('\n' :: (nSpaces d ++ '}' :: rest)))))).dropWhile isWsChar =
              '"' :: (z ++ ('\n' :: (nSpaces d ++ '}' :: rest))) := by
            rw [List.dropWhile_cons_of_pos (by decide),
              dropWhile_append_all _ (nSpaces (d + 2)) _ (nSpaces_ws _)]
            exact List.dropWhile_cons_of_neg (by decide)
          rw [hdw]
          split
          · rename_i r2 hpat
            injection hpat with h1 h2
            exact absurd h1 (by decide)
          · rename_i x2 hno
            rw [hM]
            simp [buildObj_self _ hw.1]
    · intro xs d tail rest hne hw hr htail hlen
      cases xs with
      | nil => exact absurd rfl hne
      | cons x xs2 =>
        simp only [parseElemsJ]
        cases xs2 with
        | nil =>
          have hlen2 : (renderV x d).length < f := by
            simp only [renderItems, List.length_append, nSpaces,
              List.length_replicate] at hlen
            omega
          have hV := ihV x d ('\n' :: (tail ++ ']' :: rest)) hw.1
            (Or.inr (Or.inr ⟨_, rfl⟩)) hlen2
          rw [show renderItems [x] d ++ '\n' :: (tail ++ ']' :: rest) =
            nSpaces d ++ (renderV x d ++ '\n' :: (tail ++ ']' :: rest)) by
              simp [renderItems]]
          rw [parseVal_wsPre f (nSpaces d) _ (nSpaces_ws d), hV]
          have hdw : ('\n' :: (tail ++ ']' :: rest)).dropWhile isWsChar = ']' :: rest := by
            rw [List.dropWhile_cons_of_pos (by decide),
              dropWhile_append_all _ tail _ htail]
            exact List.dropWhile_cons_of_neg (by decide)
          simp [hdw]
        | cons y ys =>
          have hlen2 : (renderV x d).length < f ∧
              (renderItems (y :: ys) d).length + 1 < f := by
            rw [show renderItems (x :: y :: ys) d = nSpaces d ++ renderV x d ++
              ',' :: '\n' :: renderItems (y :: ys) d from by simp [renderItems]] at hlen
            simp only [List.length_append, List.length_cons, nSpaces,
              List.length_replicate] at hlen
            constructor <;> omega
          have hV := ihV x d
            (',' :: ('\n' :: (renderItems (y :: ys) d ++ '\n' :: (tail ++ ']' :: rest))))
            hw.1 (Or.inr (Or.inl ⟨_, rfl⟩)) hlen2.1
          rw [show renderItems (x :: y :: ys) d ++ '\n' :: (tail ++ ']' :: rest) =
            nSpaces d ++ (renderV x d ++ ',' ::
              ('\n' :: (renderItems (y :: ys) d ++ '\n' :: (tail ++ ']' :: rest)))) by
              simp [renderItems]]
          rw [parseVal_wsPre f (nSpaces d) _ (nSpaces_ws d), hV]
          have hE := ihE (y :: ys) d tail rest (by simp) hw.2 hr htail hlen2.2
          have hwsE : parseElemsJ f
              ('\n' :: (renderItems (y :: ys) d ++ '\n' :: (tail ++ ']' :: rest))) =
              Except.ok (y :: ys, rest) := by
            rw [show ('\n' :: (renderItems (y :: ys) d ++ '\n' :: (tail ++ ']' :: rest))) =
              ['\n'] ++ (renderItems (y :: ys) d ++ '\n' :: (tail ++ ']' :: rest)) from rfl]
            rw [parseElemsJ_wsPre f ['\n'] _ (by decide)]
            exact hE
          simp [isWsChar, hwsE]
    · intro fs d tail rest hne hw hr htail hlen
      cases fs with
      | nil => exact absurd rfl hne
      | cons kv fs2 =>
        obtain ⟨k, v⟩ := kv
        simp only [parseMembersJ]
        cases fs2 with
        | nil =>
          have hlen2 : (renderV v d).length < f := by
            simp only [renderFields, List.length_append, List.length_cons, nSpaces,
              List.length_replicate, quoteStr] at hlen
            omega
          have hV := ihV v d ('\n' :: (tail ++ '}' :: rest)) hw.1
            (Or.inr (Or.inr ⟨_, rfl⟩)) hlen2
          have hVsp : parseVal f
              (' ' :: (renderV v d ++ '\n' :: (tail ++ '}' :: rest))) =
              Except.ok (v, '\n' :: (tail ++ '}' :: rest)) := by
            rw [show (' ' :: (renderV v d ++ '\n' :: (tail ++ '}' :: rest))) =
              [' '] ++ (renderV v d ++ '\n' :: (tail ++ '}' :: rest)) from rfl]
            rw [parseVal_wsPre f [' '] _ (by decide)]
            exact hV
          have hdw2 : ('\n' :: (tail ++ '}' :: rest)).dropWhile isWsChar =
              '}' :: rest := by
            rw [List.dropWhile_cons_of_pos (by decide),
              dropWhile_append_all _ tail _ htail]
            exact List.dropWhile_cons_of_neg (by decide)
          rw [show renderFields [(k, v)] d ++ '\n' :: (tail ++ '}' :: rest) =
            nSpaces d ++ ('"' :: (escapeForJson k ++ '"' ::
              (':' :: ' ' :: (renderV v d ++ '\n' :: (tail ++ '}' :: rest))))) by
              simp [renderFields, quoteStr]]
          have hdw : (nSpaces d ++ ('"' :: (escapeForJson k ++ '"' ::
              (':' :: ' ' :: (renderV v d ++ '\n' :: (tail ++ '}' :: rest)))))).dropWhile
              isWsChar = '"' :: (escapeForJson k ++ '"' ::
              (':' :: ' ' :: (renderV v d ++ '\n' :: (tail ++ '}' :: rest)))) := by
            rw [dropWhile_append_all _ (nSpaces d) _ (nSpaces_ws d)]
            exact List.dropWhile_cons_of_neg (by decide)
          rw [hdw]
          simp [parseStrBody_round k [] _, isWsChar, hVsp, hdw2]
        | cons kv2 fs3 =>
          have hlen2 : (renderV v d).length < f ∧
              (renderFields (kv2 :: fs3) d).length + 1 < f := by
            rw [show renderFields ((k, v) :: kv2 :: fs3) d =
              nSpaces d ++ (quoteStr k ++ ':' :: ' ' :: renderV v d) ++
              ',' :: '\n' :: renderFields (kv2 :: fs3) d from by simp [renderFields]] at hlen
            simp only [List.length_append, List.length_cons, nSpaces,
              List.length_replicate, quoteStr] at hlen
            constructor <;> omega
          have hV := ihV v d (',' :: ('\n' :: (renderFields (kv2 :: fs3) d ++
              '\n' :: (tail ++ '}' :: rest)))) hw.1 (Or.inr (Or.inl ⟨_, rfl⟩)) hlen2.1
          have hVsp : parseVal f (' ' :: (renderV v d ++ ',' ::
              ('\n' :: (renderFields (kv2 :: fs3) d ++ '\n' :: (tail ++ '}' :: rest))))) =
              Except.ok (v, ',' :: ('\n' :: (renderFields (kv2 :: fs3) d ++
                '\n' :: (tail ++ '}' :: rest)))) := by
            rw [show (' ' :: (renderV v d ++ ',' ::
              ('\n' :: (renderFields (kv2 :: fs3) d ++ '\n' :: (tail ++ '}' :: rest))))) =
              [' '] ++ (renderV v d ++ ',' ::
              ('\n' :: (renderFields (kv2 :: fs3) d ++ '\n' :: (tail ++ '}' :: rest))))
              from rfl]
            rw [parseVal_wsPre f [' '] _ (by decide)]
            exact hV
          have hM := ihM (kv2 :: fs3) d tail rest (by simp) hw.2 hr htail hlen2.2
          have hwsM : parseMembersJ f ('\n' :: (renderFields (kv2 :: fs3) d ++
              '\n' :: (tail ++ '}' :: rest))) = Except.ok (kv2 :: fs3, rest) := by
            rw [show ('\n' :: (renderFields (kv2 :: fs3) d ++
              '\n' :: (tail ++ '}' :: rest))) = ['\n'] ++ (renderFields (kv2 :: fs3) d ++
              '\n' :: (tail ++ '}' :: rest)) from rfl]
            rw [parseMembersJ_wsPre f ['\n'] _ (by decide)]
            exact hM
          rw [show renderFields ((k, v) :: kv2 :: fs3) d ++ '\n' :: (tail ++ '}' :: rest) =
            nSpaces d ++ ('"' :: (escapeForJson k ++ '"' ::
              (':' :: ' ' :: (renderV v d ++ ',' ::
              ('\n' :: (renderFields (kv2 :: fs3) d ++ '\n' :: (tail ++ '}' :: rest))))))) by
              simp [renderFields, quoteStr]]
          have hdw : (nSpaces d ++ ('"' :: (escapeForJson k ++ '"' ::
              (':' :: ' ' :: (renderV v d ++ ',' ::
              ('\n' :: (renderFields (kv2 :: fs3) d ++
                '\n' :: (tail ++ '}' :: rest)))))))).dropWhile isWsChar =
              '"' :: (escapeForJson k ++ '"' ::
              (':' :: ' ' :: (renderV v d ++ ',' ::
              ('\n' :: (renderFields (kv2 :: fs3) d ++
                '\n' :: (tail ++ '}' :: rest)))))) := by
            rw [dropWhile_append_all _ (nSpaces d) _ (nSpaces_ws d)]
            exact List.dropWhile_cons_of_neg (by decide)
          rw [hdw]
          simp [parseStrBody_round k [] _, isWsChar, hVsp, hwsM]


theorem jsonParse_render (v : JValue) (hw : WfV v) : jsonParse (renderV v 0) = .ok v := by
  unfold jsonParse
  rw [trimWs_renderV v hw]
  have h := (rt_all ((renderV v 0).length + 1)).1 v 0 [] hw (Or.inl rfl) (by omega)
  rw [show renderV v 0 ++ ([] : List Char) = renderV v 0 by simp] at h
  rw [h]
  simp

/-! Section 14: evaluation lemmas for fixJson on the three paths. -/

/-- When the trimmed input parses as-is, fixJson returns the parse unrevived. -/
theorem JsonFixer.fixJson_ok (input : List Char) (d : JValue)
    (h : jsonParse (trimWs input) = Except.ok d) :
    JsonFixer.fixJson input = ⟨true, d, renderV d 0, [], []⟩ := by
  unfold JsonFixer.fixJson
  simp only [h]

/-- When the initial parse fails and the repaired text parses, the result is
the revived value, serialized, with no errors. -/
theorem JsonFixer.fixJson_err_ok (input : List Char) (e : List Char) (d0 : JValue)
    (h1 : jsonParse (trimWs input) = Except.error e)
    (h2 : jsonParse (JsonFixer.fixUnquotedKeys (JsonFixer.fixTrailingCommas
      (JsonFixer.convertPythonToJson (JsonFixer.removeComments (trimWs input))))) =
        Except.ok d0) :
    (JsonFixer.fixJson input).success = true ∧
    (JsonFixer.fixJson input).data = JsonFixer.recursivelyParseStrings d0 0 ∧
    (JsonFixer.fixJson input).formatted =
      renderV (JsonFixer.recursivelyParseStrings d0 0) 0 ∧
    (JsonFixer.fixJson input).errors = [] := by
  unfold JsonFixer.fixJson
  simp only [h1, h2]
  exact ⟨trivial, trivial, trivial, trivial⟩

/-- When both parses fail, the result is the failure record with the final
message. -/
theorem JsonFixer.fixJson_err_err (input : List Char) (e m : List Char)
    (h1 : jsonParse (trimWs input) = Except.error e)
    (h2 : jsonParse (JsonFixer.fixUnquotedKeys (JsonFixer.fixTrailingCommas
      (JsonFixer.convertPythonToJson (JsonFixer.removeComments (trimWs input))))) =
        Except.error m) :
    (JsonFixer.fixJson input).success = false ∧
    (JsonFixer.fixJson input).data = .null ∧
    (JsonFixer.fixJson input).formatted = [] ∧
    (JsonFixer.fixJson input).errors = [m] := by
  unfold JsonFixer.fixJson
  simp only [h1, h2]
  exact ⟨trivial, trivial, trivial, trivial⟩

/-! Section 15: fixJson on a canonical rendering is the identity result. -/

theorem fixJson_render (v : JValue) (hw : WfV v) :
    JsonFixer.fixJson (renderV v 0) = ⟨true, v, renderV v 0, [], []⟩ :=
  JsonFixer.fixJson_ok (renderV v 0) v
    (by rw [trimWs_renderV v hw]; exact jsonParse_render v hw)

/-! Section 20: the claims. -/

/-- C9: the recursive string reviver is a total function of the model, and its
recursion depth is capped: at any depth beyond 10, every value, in particular
every string leaf, is returned unparsed rather than revived. -/
theorem claim_c9_depth_cap (v : JValue) (d : Nat) (h : 10 < d) :
    JsonFixer.recursivelyParseStrings v d = v :=
  JsonFixer.rps_past_cap v d h

/-- C9 witness: at depth 11 the nested-payload string leaf stays unparsed. -/
theorem claim_c9_depth_cap_witness :
    10 < 11 ∧ JsonFixer.recursivelyParseStrings (.str nestedLeaf) 11 = .str nestedLeaf :=
  ⟨by decide, claim_c9_depth_cap (.str nestedLeaf) 11 (by decide)⟩

/-- C10: during revival within the depth cap, a string leaf whose trimmed text
matches the label pattern (a non-brace prefix, a colon, then a brace- or
bracket-delimited span ending the string) with a span that parses as JSON or
Python-like is replaced by an object with exactly the two keys _prefix (holding
the trimmed prefix text) and _data (holding the parsed, recursively revived
value): the prefix is always retained, never discarded. -/
theorem claim_c10_label_sentinel (s : List Char) (d : Nat) (pre span : List Char)
    (p : JValue) (hd : d ≤ 10)
    (hsplit : JsonFixer.labelSplit [] (trimWs s) = some (pre, span))
    (hp : JsonFixer.tryParseJsonOrPython span = some p) :
    JsonFixer.recursivelyParseStrings (.str s) d =
      .obj [(( "_prefix").data, .str (trimWs pre)),
            (( "_data").data, JsonFixer.recursivelyParseStrings p (d + 1))] :=
  JsonFixer.rps_str_label s d pre span p hd hsplit hp

/-- C10 witness: the labelled payload string revives to the sentinel object
keeping its prefix under the _prefix key. -/
theorem claim_c10_label_sentinel_witness :
    JsonFixer.recursivelyParseStrings (.str (( "extractor_request: ").data ++ nestedLeaf)) 0 =
      .obj [(( "_prefix").data, .str ( "extractor_request").data),
            (( "_data").data, JsonFixer.recursivelyParseStrings
              (.obj [(( "key").data, .str ( "value").data)]) 1)] :=
  claim_c10_label_sentinel (( "extractor_request: ").data ++ nestedLeaf) 0
    ( "extractor_request").data nestedLeaf
    (.obj [(( "key").data, .str ( "value").data)]) (by decide) rfl rfl

/-- C1 counterexample: the input the claim names is already valid JSON, so
fixJson returns on its parse-as-is path, which performs no revival: the returned
data keeps the nested payload as a string leaf instead of the parsed object the
claim requires. -/
theorem claim_c1_counterexample :
    (JsonFixer.fixJson reqValid).success = true ∧
    (JsonFixer.fixJson reqValid).data =
      .obj [(( "extractor_request").data, .str nestedLeaf)] :=
  ⟨rfl, rfl⟩

/-- C1 amended: revival runs only on the repair path. Within the depth cap the
reviver replaces a string leaf whose trim is brace- or bracket-delimited and
parses (strict JSON first, then Python-converted) by its recursively revived
parse; and on an input whose initial strict parse fails, such as the
single-quoted variant of the claim input, fixJson succeeds and returns the
revived object in place of the string leaf. On already-valid input (see the
counterexample) the leaf is kept. -/
theorem claim_c1_amended (s : List Char) (d : Nat) (p : JValue) (hd : d ≤ 10)
    (hdelim : (trimWs s).head? = some '{' ∧ (trimWs s).getLast? = some '}' ∨
              (trimWs s).head? = some '[' ∧ (trimWs s).getLast? = some ']')
    (hp : JsonFixer.tryParseJsonOrPython (trimWs s) = some p) :
    JsonFixer.recursivelyParseStrings (.str s) d =
      JsonFixer.recursivelyParseStrings p (d + 1) ∧
    (JsonFixer.fixJson reqSingle).success = true ∧
    (JsonFixer.fixJson reqSingle).data =
      .obj [(( "extractor_request").data, .obj [(( "key").data, .str ( "value").data)])] :=
  ⟨JsonFixer.rps_str_parsed s d p hd hdelim hp, rfl, rfl⟩

/-- C1 witness: the nested payload leaf itself revives to its parse at the next
depth. -/
theorem claim_c1_amended_witness :
    JsonFixer.recursivelyParseStrings (.str nestedLeaf) 0 =
      JsonFixer.recursivelyParseStrings (.obj [(( "key").data, .str ( "value").data)]) 1 ∧
    (JsonFixer.fixJson reqSingle).data =
      .obj [(( "extractor_request").data, .obj [(( "key").data, .str ( "value").data)])] := by
  have h := claim_c1_amended nestedLeaf 0 (.obj [(( "key").data, .str ( "value").data)])
    (by decide) (by exact Or.inl ⟨rfl, rfl⟩) rfl
  exact ⟨h.1, h.2.2⟩

/-- C3 counterexample: the claim says repair of the apostrophe object succeeds
with the full surname; in the code the quote after the O closes the string (no
lookahead at the next character), the leftover text corrupts the object and the
final parse fails. -/
theorem claim_c3_counterexample :
    (JsonFixer.fixJson obrienText).success = false := rfl

/-- C3 amended: after an opening single quote, the first following unescaped
single quote closes the string whatever character comes next (there is no
lookahead); the decoded body is re-emitted as a double-quoted JSON literal. As
a consequence the repair of the apostrophe object fails with a reported error
rather than yielding the surname. -/
theorem claim_c3_amended (content rest : List Char)
    (h : ∀ c ∈ content, c ≠ '\'' ∧ c ≠ '\\') :
    JsonFixer.readSingleQuotedString (content ++ '\'' :: rest) =
      ('"' :: (escapeForJson content ++ ['"']), rest) ∧
    (JsonFixer.fixJson obrienText).success = false ∧
    (JsonFixer.fixJson obrienText).errors ≠ [] := by
  refine ⟨JsonFixer.readSingleQuotedString_clean content rest h, rfl, ?_⟩
  decide

/-- C3 witness: the quote after the O closes the string although a letter, not
a structural character, follows it. -/
theorem claim_c3_amended_witness :
    JsonFixer.readSingleQuotedString ([ 'O'] ++ '\'' :: ( "Brien").data) =
      ('"' :: (escapeForJson [ 'O'] ++ ['"']), ( "Brien").data) ∧
    (JsonFixer.fixJson obrienText).success = false := by
  have h := claim_c3_amended [ 'O'] ( "Brien").data (by decide)
  exact ⟨h.1, h.2.1⟩

/-- C4 counterexample: on an input that reaches the repair path, the
trailing-comma stage deletes the comma of a comma-brace sequence inside a
double-quoted string body: repair succeeds but the string value comes out as a
lone brace, not the claimed untouched body. -/
theorem claim_c4_counterexample :
    (JsonFixer.fixJson commaBraceText).success = true ∧
    (JsonFixer.fixJson commaBraceText).data = .obj [([ 'a'], .str ['}'])] :=
  ⟨rfl, rfl⟩

/-- C4 amended: comment stripping is string-aware and copies a double-quoted
string body (comment openers included) verbatim, but trailing-comma removal is
a plain regex pass that does rewrite characters inside double-quoted string
bodies, as on the comma-brace string. -/
theorem claim_c4_amended (body rest : List Char)
    (h : ∀ c ∈ body, c ≠ '"' ∧ c ≠ '\\') :
    JsonFixer.removeComments ('"' :: (body ++ '"' :: rest)) =
      '"' :: (body ++ '"' :: JsonFixer.removeComments rest) ∧
    JsonFixer.fixTrailingCommas ('"' :: ',' :: '}' :: '"' :: []) =
      '"' :: '}' :: '"' :: [] :=
  ⟨JsonFixer.removeComments_string body rest h, rfl⟩

/-- C4 witness: a string body holding both comment forms survives comment
stripping verbatim. -/
theorem claim_c4_amended_witness :
    JsonFixer.removeComments ('"' :: (( "a//b /*c*/ d").data ++ '"' :: [])) =
      '"' :: (( "a//b /*c*/ d").data ++ '"' :: JsonFixer.removeComments []) ∧
    JsonFixer.fixTrailingCommas ('"' :: ',' :: '}' :: '"' :: []) =
      '"' :: '}' :: '"' :: [] := by
  have h := claim_c4_amended ( "a//b /*c*/ d").data [] (by decide)
  exact ⟨h.1, h.2⟩

/-- C5: under the pipeline variant with the bare-value stage, repair of the
bare-word object succeeds and yields the object mapping a to the string b; in
general fixUnquotedKeys wraps a bare identifier in key position in double
quotes, and fixUnquotedValues wraps a bare identifier in value position (after
a colon, before a comma, closing brace or bracket) unless it is exactly true,
false or null, in which case the match is left unchanged. -/
theorem claim_c5_bare_words :
    (JsonFixerV1.fixJson bareText).success = true ∧
    (JsonFixerV1.fixJson bareText).data = .obj [([ 'a'], .str [ 'b'])] ∧
    (∀ (w1 idT w2 rest : List Char) (c1 d : Char),
      (∀ c ∈ w1, isRegexWs c = true) → (∀ c ∈ w2, isRegexWs c = true) →
      JsonFixerV1.isIdentStartV c1 = true →
      (∀ c ∈ idT, JsonFixerV1.isIdentContV c = true) →
      (d = ',' ∨ d = '}' ∨ d = ']') →
      JsonFixerV1.fixUnquotedValues (':' :: (w1 ++ c1 :: (idT ++ (w2 ++ d :: rest)))) =
        (':' :: (w1 ++ (if JsonFixerV1.keepBare (c1 :: idT) then c1 :: idT
          else '"' :: c1 :: (idT ++ ['"'])) ++ (w2 ++ [d]))) ++
          JsonFixerV1.fixUnquotedValues rest) ∧
    (∀ (w1 idT w2 rest : List Char) (p c1 : Char),
      (p = '{' ∨ p = ',') →
      (∀ c ∈ w1, isRegexWs c = true) → (∀ c ∈ w2, isRegexWs c = true) →
      JsonFixer.isIdentStartK c1 = true →
      (∀ c ∈ idT, JsonFixer.isIdentContK c = true) →
      JsonFixer.fixUnquotedKeys (p :: (w1 ++ c1 :: (idT ++ (w2 ++ ':' :: rest)))) =
        (p :: (w1 ++ '"' :: c1 :: (idT ++ '"' :: (w2 ++ [':'])))) ++
          JsonFixer.fixUnquotedKeys rest) :=
  ⟨rfl, rfl,
   fun w1 idT w2 rest c1 d hw1 hw2 hc1 hid hd =>
     JsonFixer.fixUnquotedValues_bare w1 idT w2 rest c1 d hw1 hw2 hc1 hid hd,
   fun w1 idT w2 rest p c1 hp hw1 hw2 hc1 hid =>
     JsonFixer.fixUnquotedKeys_bare w1 idT w2 rest p c1 hp hw1 hw2 hc1 hid⟩

/-- C5 witness: the colon-space-b-brace span wraps b in quotes (b is none of
true, false, null), and the brace-a-colon span wraps the key a. -/
theorem claim_c5_bare_words_witness :
    JsonFixerV1.fixUnquotedValues (':' :: ([ ' '] ++ 'b' :: ([] ++ ([] ++ '}' :: [])))) =
      (':' :: ([ ' '] ++ (if JsonFixerV1.keepBare ('b' :: []) then 'b' :: []
        else '"' :: 'b' :: ([] ++ ['"'])) ++ ([] ++ ['}']))) ++
        JsonFixerV1.fixUnquotedValues [] ∧
    JsonFixer.fixUnquotedKeys ('{' :: ([] ++ 'a' :: ([] ++ ([] ++ ':' :: [])))) =
      ('{' :: ([] ++ '"' :: 'a' :: ([] ++ '"' :: ([] ++ [':'])))) ++
        JsonFixer.fixUnquotedKeys [] := by
  have h := claim_c5_bare_words
  exact ⟨h.2.2.1 [ ' '] [] [] [] 'b' '}' (by decide) (by decide) (by decide)
      (by decide) (by decide),
    h.2.2.2 [] [] [] [] '{' 'a' (by decide) (by decide) (by decide) (by decide)
      (by decide)⟩

/-- C8 counterexample: the literal substitution checks only the boundary to the
right of the token, so the None embedded at the end of the longer identifier
myNone is rewritten, which the claim rules out. -/
theorem claim_c8_counterexample :
    JsonFixer.convertPythonToJson ( "myNone").data = ( "mynull").data := rfl

/-- C8 amended: None, True and False followed by no word character are replaced
by null, true and false whatever precedes them (right-boundary matching only);
NoneType is left alone because a word character follows; and the Python example
of the claim repairs to the object with true and null values. -/
theorem claim_c8_amended (rest : List Char) (hb : JsonFixer.pyBoundary rest = true) :
    (JsonFixer.convertPythonToJson (( "None").data ++ rest) =
      ( "null").data ++ JsonFixer.convertPythonToJson rest) ∧
    (JsonFixer.convertPythonToJson (( "True").data ++ rest) =
      ( "true").data ++ JsonFixer.convertPythonToJson rest) ∧
    (JsonFixer.convertPythonToJson (( "False").data ++ rest) =
      ( "false").data ++ JsonFixer.convertPythonToJson rest) ∧
    JsonFixer.convertPythonToJson ( "NoneType").data = ( "NoneType").data ∧
    (JsonFixer.fixJson pythonText).success = true ∧
    (JsonFixer.fixJson pythonText).data =
      .obj [(( "ok").data, .bool true), (( "val").data, .null)] :=
  ⟨JsonFixer.convertPythonToJson_none rest hb,
   JsonFixer.convertPythonToJson_true rest hb,
   JsonFixer.convertPythonToJson_false rest hb, rfl, rfl, rfl⟩

/-- C8 witness: before a closing brace the literals are replaced. -/
theorem claim_c8_amended_witness :
    JsonFixer.convertPythonToJson (( "None").data ++ ['}']) =
      ( "null").data ++ JsonFixer.convertPythonToJson ['}'] ∧
    (JsonFixer.fixJson pythonText).data =
      .obj [(( "ok").data, .bool true), (( "val").data, .null)] := by
  have h := claim_c8_amended ['}'] (by decide)
  exact ⟨h.1, h.2.2.2.2.2⟩

/-- C2: for every input text, success holds iff formatted is the canonical
two-space serialization of data (data is always a JValue of the model, so a
valid JSON value); errors is non-empty iff success is false; and on failure
data is null, formatted is empty, and errors holds exactly one entry, the
message of the final parse of the fully repaired text. -/
theorem claim_c2_result_invariants (input : List Char) :
    ((JsonFixer.fixJson input).success = true ↔
      (JsonFixer.fixJson input).formatted = renderV (JsonFixer.fixJson input).data 0) ∧
    ((JsonFixer.fixJson input).errors ≠ [] ↔ (JsonFixer.fixJson input).success = false) ∧
    ((JsonFixer.fixJson input).success = false →
      (JsonFixer.fixJson input).data = .null ∧
      (JsonFixer.fixJson input).formatted = [] ∧
      ∃ m, jsonParse (JsonFixer.fixUnquotedKeys (JsonFixer.fixTrailingCommas
        (JsonFixer.convertPythonToJson (JsonFixer.removeComments (trimWs input))))) =
          .error m ∧ (JsonFixer.fixJson input).errors = [m]) := by
  cases h1 : jsonParse (trimWs input) with
  | ok d =>
    rw [JsonFixer.fixJson_ok input d h1]
    simp
  | error e =>
    cases h2 : jsonParse (JsonFixer.fixUnquotedKeys (JsonFixer.fixTrailingCommas
        (JsonFixer.convertPythonToJson (JsonFixer.removeComments (trimWs input))))) with
    | ok d0 =>
      obtain ⟨hs, hd, hf, he⟩ := JsonFixer.fixJson_err_ok input e d0 h1 h2
      rw [hs, hd, hf, he]
      simp
    | error m =>
      obtain ⟨hs, hd, hf, he⟩ := JsonFixer.fixJson_err_err input e m h1 h2
      rw [hs, hd, hf, he]
      refine ⟨?_, by simp, fun _ => ⟨rfl, rfl, m, rfl, rfl⟩⟩
      constructor
      · intro hfalse
        exact absurd hfalse (by simp)
      · intro hfmt
        exact absurd hfmt (by decide)

/-- C2 witness: on the bare-word input the final parse fails, so the record is
the failure record. -/
theorem claim_c2_result_invariants_witness :
    (JsonFixer.fixJson bareText).data = .null ∧
    (JsonFixer.fixJson bareText).formatted = [] := by
  have h := claim_c2_result_invariants bareText
  exact ⟨((h.2.2) rfl).1, ((h.2.2) rfl).2.1⟩

/-- C6: on text that is already valid JSON, fixJson succeeds on its parse-as-is
path, its data is exactly the standard parse of the text, and its fixes list is
empty. -/
theorem claim_c6_valid_noop (t : List Char) (v : JValue) (h : jsonParse t = .ok v) :
    (JsonFixer.fixJson t).success = true ∧ (JsonFixer.fixJson t).data = v ∧
    (JsonFixer.fixJson t).fixes = [] := by
  have he : jsonParse (trimWs t) = Except.ok v := by rw [jsonParse_trimWs]; exact h
  rw [JsonFixer.fixJson_ok t v he]
  exact ⟨rfl, rfl, rfl⟩

/-- C6 witness: a small valid text parses to its standard value with no fixes. -/
theorem claim_c6_valid_noop_witness :
    (JsonFixer.fixJson ( "[true]").data).data = .arr [.bool true] ∧
    (JsonFixer.fixJson ( "[true]").data).fixes = [] :=
  ⟨(claim_c6_valid_noop ( "[true]").data (.arr [.bool true]) rfl).2.1,
   (claim_c6_valid_noop ( "[true]").data (.arr [.bool true]) rfl).2.2⟩

/-- C7: whenever fixJson succeeds on an input, running fixJson again on the
formatted output also succeeds and returns a byte-identical formatted field:
the formatted text is the canonical two-space serialization of a well-formed
value, which trims to itself, parses back to exactly that value on the
parse-as-is path, and serializes identically. -/
theorem claim_c7_formatted_fixed_point (x : List Char)
    (h : (JsonFixer.fixJson x).success = true) :
    (JsonFixer.fixJson ((JsonFixer.fixJson x).formatted)).success = true ∧
    (JsonFixer.fixJson ((JsonFixer.fixJson x).formatted)).formatted =
      (JsonFixer.fixJson x).formatted := by
  cases h1 : jsonParse (trimWs x) with
  | ok d =>
    have hw : WfV d := jsonParse_wf (trimWs x) d h1
    rw [JsonFixer.fixJson_ok x d h1]
    rw [show (⟨true, d, renderV d 0, [], []⟩ : JsonFixResult).formatted =
      renderV d 0 from rfl]
    rw [fixJson_render d hw]
    exact ⟨rfl, rfl⟩
  | error e =>
    cases h2 : jsonParse (JsonFixer.fixUnquotedKeys (JsonFixer.fixTrailingCommas
        (JsonFixer.convertPythonToJson (JsonFixer.removeComments (trimWs x))))) with
    | ok d0 =>
      obtain ⟨hs, hd, hf, he⟩ := JsonFixer.fixJson_err_ok x e d0 h1 h2
      have hw : WfV (JsonFixer.recursivelyParseStrings d0 0) :=
        recursivelyParseStrings_wf d0 0 (jsonParse_wf _ d0 h2)
      rw [hf, fixJson_render _ hw]
      exact ⟨rfl, rfl⟩
    | error m =>
      obtain ⟨hs, _, _, _⟩ := JsonFixer.fixJson_err_err x e m h1 h2
      rw [hs] at h
      cases h

/-- C7 witness: fixJson succeeds on a small valid text and re-repairing its
formatted output reproduces it byte for byte. -/
theorem claim_c7_formatted_fixed_point_witness :
    (JsonFixer.fixJson ( "[true]").data).success = true ∧
    (JsonFixer.fixJson ((JsonFixer.fixJson ( "[true]").data).formatted)).formatted =
      (JsonFixer.fixJson ( "[true]").data).formatted :=
  ⟨rfl, (claim_c7_formatted_fixed_point ( "[true]").data rfl).2⟩
